import Mathlib

/-!
# Verification of the plan-execution engine and price parsing of `web_automation_ai`

Shallow embedding of `src/ai_mcp/executor.py`:

* the price-constraint parser `parse_price_filters` (lines 79–105), including a
  character-level implementation of the two Python regular expressions
  `PRICE_RE` and `RANGE_RE` together with their `search` and `sub` operations;
* the product extractor `extract_products` (lines 138–332), with the live page
  abstracted into the card data the selector passes resolve to;
* the plan-execution engine `execute_plan` (lines 336–443), with the browser
  abstracted into an environment giving each step attempt its outcome.

Prices are modelled as rationals (the Python floats in play are produced by
`float` on decimal literals and only compared; no float rounding is relevant
to the claims).
-/

namespace WebAuto

/-! Character utilities.

`isSpc` models Python and JavaScript whitespace (`\s` of `re` on ASCII input,
`str.strip`, `String.prototype.trim`). -/

def isSpc (c : Char) : Bool :=
  c = ' ' || c = '\t' || c = '\n' || c = '\r' || c = '\x0b' || c = '\x0c'

def isDig (c : Char) : Bool :=
  c.isDigit

def digitsToNat (ds : List Char) : Nat :=
  ds.foldl (fun a c => 10 * a + (c.toNat - 48)) 0

/-- Python `str.strip()`: drop whitespace at both ends. -/
def stripB (cs : List Char) : List Char :=
  ((cs.dropWhile isSpc).reverse.dropWhile isSpc).reverse

/-! The regex `PRICE_RE`:

`(?P<op>above|over|under|below|less\s+than|more\s+than|at\s+least|>=|>|<=|<)?\s*\$?\s*(?P<val>\d+(?:\.\d{1,2})?)`
compiled with `re.I`.  The alternation is ordered and the engine backtracks to
the next alternative (finally, to the absent group) when the remainder fails;
the quantifiers `\s*`, `\$?`, `\d+`, `\.\d{1,2}` are greedy, and no shorter
choice can ever succeed where the greedy one fails (the item that follows each
of them can never match a character the greedy run would have consumed), so a
deterministic greedy matcher is exact at every starting position. -/

/-- Case-insensitive literal: consumes `pat` (given lowercase), returning the
original consumed characters and the remainder. -/
def litCI : List Char → List Char → Option (List Char × List Char)
  | [], cs => some ([], cs)
  | _ :: _, [] => none
  | p :: ps, c :: cs =>
    if c.toLower = p then
      match litCI ps cs with
      | some (m, r) => some (c :: m, r)
      | none => none
    else none

/-- Model of `\s+` : at least one whitespace character, greedy. -/
def spaces1 : List Char → Option (List Char × List Char)
  | [] => none
  | c :: cs2 =>
    if isSpc c then some ((c :: cs2).takeWhile isSpc, (c :: cs2).dropWhile isSpc) else none

/-- Pattern `w1\s+w2` (for `less\s+than`, `more\s+than`, `at\s+least`); the matched
text keeps the actual whitespace run, as `m.group("op")` does. -/
def wordPair (w1 w2 cs : List Char) : Option (List Char × List Char) :=
  match litCI w1 cs with
  | none => none
  | some (m1, r1) =>
    match spaces1 r1 with
    | none => none
    | some (sp, r2) =>
      match litCI w2 r2 with
      | none => none
      | some (m2, r3) => some (m1 ++ sp ++ m2, r3)

/-- Model of `\s*\$?\s*` : greedy, deterministic. -/
def sepAfter (cs : List Char) : List Char :=
  match cs.dropWhile isSpc with
  | '$' :: r2 => r2.dropWhile isSpc
  | r1 => r1

/-- Pattern `\d+(?:\.\d{1,2})?` : value of the matched number and the remainder. -/
def matchNum (cs : List Char) : Option (ℚ × List Char) :=
  if (cs.takeWhile isDig).isEmpty then none
  else
    match cs.dropWhile isDig with
    | '.' :: r2 =>
      if ((r2.takeWhile isDig).take 2).isEmpty then
        some ((digitsToNat (cs.takeWhile isDig) : ℚ), '.' :: r2)
      else
        some (mkRat (digitsToNat (cs.takeWhile isDig) * 10 ^ ((r2.takeWhile isDig).take 2).length
              + digitsToNat ((r2.takeWhile isDig).take 2)) (10 ^ ((r2.takeWhile isDig).take 2).length),
          r2.drop ((r2.takeWhile isDig).take 2).length)
    | r => some ((digitsToNat (cs.takeWhile isDig) : ℚ), r)

def OpMatcher : Type :=
  List Char → Option (List Char × List Char)

/-- The ordered alternatives of the `op` group, ending with the absent group
(empty match). -/
def priceAlts : List OpMatcher :=
  [litCI "above".toList, litCI "over".toList, litCI "under".toList, litCI "below".toList,
   wordPair "less".toList "than".toList, wordPair "more".toList "than".toList,
   wordPair "at".toList "least".toList,
   litCI ">=".toList, litCI ">".toList, litCI "<=".toList, litCI "<".toList,
   fun cs => some ([], cs)]

/-- One alternative followed by `\s*\$?\s*` and the number. -/
def tryOp (a : OpMatcher) (cs : List Char) : Option (List Char × ℚ × List Char) :=
  match a cs with
  | none => none
  | some (opm, r1) =>
    match matchNum (sepAfter r1) with
    | none => none
    | some (v, rest) => some (opm, v, rest)

def firstOp : List OpMatcher → List Char → Option (List Char × ℚ × List Char)
  | [], _ => none
  | a :: as, cs =>
    match tryOp a cs with
    | some x => some x
    | none => firstOp as cs

/-- Attempt `PRICE_RE` anchored at the start of `cs`: matched `op` text,
value of `val`, and the remainder after the match. -/
def priceMatchAt (cs : List Char) : Option (List Char × ℚ × List Char) :=
  firstOp priceAlts cs

/-- Model of `PRICE_RE.search`: leftmost match, returning `(op text, val)`. -/
def scanP : List Char → Option (List Char × ℚ)
  | [] => none
  | c :: cs =>
    match priceMatchAt (c :: cs) with
    | some (op, v, _) => some (op, v)
    | none => scanP cs

/-- Model of `PRICE_RE.sub("", ·)`: remove every non-overlapping match, scanning left
to right.  Fuel-driven (each match consumes at least one character, so
`cs.length` fuel always suffices). -/
def subPAux : Nat → List Char → List Char
  | 0, cs => cs
  | _ + 1, [] => []
  | f + 1, c :: cs =>
    match priceMatchAt (c :: cs) with
    | some (_, _, rest) => subPAux f rest
    | none => c :: subPAux f cs

def subP (cs : List Char) : List Char :=
  subPAux cs.length cs

/-! The regex `RANGE_RE`:

`\$?\s*(?P<lo>\d+(?:\.\d{1,2})?)\s*[-–to]+\s*\$?\s*(?P<hi>\d+(?:\.\d{1,2})?)`
with `re.I`.  Note `[-–to]+` is a character class: one or more of
`-`, `–`, `t`, `o` (case-insensitively). -/

def isRangeSep (c : Char) : Bool :=
  c.toLower = '-' || c.toLower = '–' || c.toLower = 't' || c.toLower = 'o'

/-- Model of `\$?\s*` : greedy, deterministic. -/
def dollarSpaces (cs : List Char) : List Char :=
  match cs with
  | '$' :: r => r.dropWhile isSpc
  | _ => cs.dropWhile isSpc

/-- Attempt `RANGE_RE` anchored at the start of `cs`. -/
def rangeMatchAt (cs : List Char) : Option (ℚ × ℚ × List Char) :=
  match matchNum (dollarSpaces cs) with
  | none => none
  | some (lo, r1) =>
    if ((r1.dropWhile isSpc).takeWhile isRangeSep).isEmpty then none
    else
      match matchNum (sepAfter ((r1.dropWhile isSpc).dropWhile isRangeSep)) with
      | none => none
      | some (hi, rest) => some (lo, hi, rest)

/-- Model of `RANGE_RE.search`: leftmost match, returning `(lo, hi)`. -/
def scanR : List Char → Option (ℚ × ℚ)
  | [] => none
  | c :: cs =>
    match rangeMatchAt (c :: cs) with
    | some (lo, hi, _) => some (lo, hi)
    | none => scanR cs

/-- Model of `RANGE_RE.sub("", ·)`. -/
def subRAux : Nat → List Char → List Char
  | 0, cs => cs
  | _ + 1, [] => []
  | f + 1, c :: cs =>
    match rangeMatchAt (c :: cs) with
    | some (_, _, rest) => subRAux f rest
    | none => c :: subRAux f cs

def subR (cs : List Char) : List Char :=
  subRAux cs.length cs

/-! Model of `parse_price_filters` (executor.py lines 83–105). -/

def minOps : List (List Char) :=
  ["above".toList, "over".toList, "more than".toList, "at least".toList, ">".toList, ">=".toList]

def maxOps : List (List Char) :=
  ["under".toList, "below".toList, "less than".toList, "<".toList, "<=".toList]

/-- Return `(min_price, max_price, cleaned_query)`. -/
def parse_price_filters (goal : String) : Option ℚ × Option ℚ × String :=
  let g := stripB goal.toList
  match scanR g with
  | some (lo, hi) => (some lo, some hi, String.mk (stripB (subR g)))
  | none =>
    match scanP g with
    | some (op, v) =>
      let ol := op.map Char.toLower
      if ol ∈ minOps then (some v, none, String.mk (stripB (subP g)))
      else if ol ∈ maxOps then (none, some v, String.mk (stripB (subP g)))
      else (none, none, String.mk g)
    | none => (none, none, String.mk g)

/-! Product extraction (executor.py lines 138–332).

The live page is abstracted into:
* its raw markup (`html`), checked against the block markers;
* whether the result-container wait/retry loop found product cards
  (`containersFound` — covers the `wait_for_selector` timeout and the empty
  retry loop, both of which make the function return `[]`);
* the per-card field data each of the two extraction passes resolves
  (`cards` for the primary selector set, `fallbackCards` for the coarser
  `div.s-card-container` pass): for each card, the text of the resolved title
  element, the resolved `href`, the resolved price text, and whether a
  sponsored marker matched.
-/

structure Product where
  title : String
  link : String
  price : ℚ
deriving DecidableEq, Repr

structure Card where
  title : Option String
  href : Option String
  priceText : Option String
  sponsored : Bool
deriving DecidableEq, Repr

structure Page where
  html : String
  containersFound : Bool
  cards : List Card
  fallbackCards : List Card

/-- JavaScript `String.prototype.trim`. -/
def jsTrim (s : String) : String :=
  String.mk (stripB s.toList)

/-- JavaScript `parseFloat` restricted to strings over digits and `.` (all a
`money` argument can contain): longest numeric prefix, `none` for NaN. -/
def parseFloatJS (cs : List Char) : Option ℚ :=
  let ds := cs.takeWhile isDig
  let r := cs.dropWhile isDig
  match r with
  | '.' :: r2 =>
    let fs := r2.takeWhile isDig
    if ds.isEmpty && fs.isEmpty then none
    else some (mkRat (digitsToNat ds * 10 ^ fs.length + digitsToNat fs) (10 ^ fs.length))
  | _ => if ds.isEmpty then none else some ((digitsToNat ds : ℚ))

/-- The `money` helper of the extraction script: keep only the characters
`0-9 . , -`, split on a hyphen or en dash and take the first segment, remove
commas, then `parseFloat`.  (The en dash `–` is removed by the first replace,
so only the ASCII hyphen can act as the split point.)  `none` models NaN. -/
def money : Option String → Option ℚ
  | none => none
  | some s =>
    let clean := s.toList.filter (fun c => isDig c || c = '.' || c = ',' || c = '-')
    let seg := clean.takeWhile (fun c => c ≠ '-')
    parseFloatJS (seg.filter (fun c => c ≠ ','))

/-- Per-card field extraction and validation: the JavaScript
`if (!title || !link || !Number.isFinite(price) || price <= 0 || isSponsored(card)) return null`.
A falsy title is a missing element or whitespace-only text; a falsy link is a
missing element or empty `href`. -/
def cardToProduct (c : Card) : Option Product :=
  let title : Option String :=
    match c.title with
    | none => none
    | some t => if jsTrim t = "" then none else some (jsTrim t)
  let link : Option String :=
    match c.href with
    | none => none
    | some h =>
      if h = "" then none
      else if h.startsWith "http" then some h
      else some ("https://www.amazon.com" ++ h)
  match title, link, money c.priceText with
  | some t, some l, some p => if p ≤ 0 || c.sponsored then none else some ⟨t, l, p⟩
  | _, _, _ => none

def block_markers : List String :=
  ["captcha", "robot check", "enter the characters you see", "/errors/validateCaptcha"]

def isPref : List Char → List Char → Bool
  | [], _ => true
  | _ :: _, [] => false
  | a :: as, b :: bs => a = b && isPref as bs

/-- Whether `needle` occurs contiguously in `haystack` (Python `in` on strings). -/
def isSubL (needle haystack : List Char) : Bool :=
  haystack.tails.any (isPref needle)

def lowerL (s : String) : List Char :=
  s.toList.map Char.toLower

/-- Check `any(b in html.lower() for b in block_markers)` — note the fourth marker
contains a capital letter and is compared against the lowercased markup. -/
def blockedHtml (html : String) : Bool :=
  block_markers.any (fun b => isSubL b.toList (lowerL html))

/-- Model of `within_bounds` (lines 298–303): both ends inclusive. -/
def withinBounds (mn mx : Option ℚ) (p : Product) : Bool :=
  (match mn with | none => true | some m => decide (m ≤ p.price)) &&
  (match mx with | none => true | some m => decide (p.price ≤ m))

def prodLE (a b : Product) : Prop :=
  a.price ≤ b.price

instance : DecidableRel prodLE :=
  fun a b => inferInstanceAs (Decidable (a.price ≤ b.price))

instance : IsTotal Product prodLE :=
  ⟨fun a b => le_total a.price b.price⟩

instance : IsTrans Product prodLE :=
  ⟨fun _ _ _ h1 h2 => le_trans h1 h2⟩

/-- Sorting `products.sort(key=lambda x: x["price"])` — ascending, modelled by
insertion sort (the claims do not depend on the tie order of Python's
stable sort). -/
def sortByPrice (ps : List Product) : List Product :=
  List.insertionSort prodLE ps

/-- Model of `extract_products` (lines 138–332).  Returns the product list; every
failure path of the original returns `[]`. -/
def extract_products (page : Page) (goal : String) : List Product :=
  let mm := parse_price_filters goal
  if blockedHtml page.html then []
  else if !page.containersFound then []
  else
    let products := page.cards.filterMap cardToProduct
    let products := if products.isEmpty then page.fallbackCards.filterMap cardToProduct else products
    -- `math.isfinite` is identically true here: every price returned by
    -- `money` is a finite rational.
    let products := products.filter (fun p => withinBounds mm.1 mm.2.1 p && decide ((0 : ℚ) < p.price))
    if products.isEmpty then []
    else sortByPrice products

/-! The plan-execution engine (executor.py lines 336–443).

The browser is abstracted into an `Env` giving every step attempt its
outcome, indexed by a global attempt counter `t` (the engine is strictly
sequential).  `goto`/`wait_for`/`scroll` either complete or raise;
`fill`/`click` delegate to the resolver helpers, which return a boolean and
never raise; `extract` yields the list `extract_products` returned (the
original raises `RuntimeError("Extraction failed.")` on an empty list).
The replanning callback (`llm_fn`) either raises or yields the steps of the
new plan (`[]` models `None`/malformed/step-less responses). -/

def SEARCH_INPUTS : List String :=
  ["input#twotabsearchtextbox", "input[name='field-keywords']"]

def SEARCH_SUBMITS : List String :=
  ["input#nav-search-submit-button", "input[type='submit'][value]", "input[type='submit']"]

structure Step where
  action : String
  selector : String
  value : Option String
deriving DecidableEq, Repr

structure ExecResult where
  data : List Product
  selected : Option Product
  errors : List String
deriving DecidableEq, Repr

inductive ReplanOutcome where
  | raises (msg : String)
  | newPlan (steps : List Step)

structure Env where
  gotoRes : Nat → String → Option String      -- `some msg` = the handler raised
  waitRes : Nat → String → Option String
  scrollRes : Nat → Option String
  resolveFill : Nat → String → Bool           -- per-selector resolution success
  resolveClick : Nat → String → Bool
  resolveEnter : Nat → String → Bool          -- keyboard-submit fallback
  extractRes : Nat → List Product

/-- Model of `_fill_with_fallbacks` (lines 54–66): primary selector then the
`SEARCH_INPUTS` fallbacks; all per-candidate errors swallowed. -/
def fill_with_fallbacks (resolve : String → Bool) (selector : String) : Bool :=
  (selector :: SEARCH_INPUTS.filter (fun s => s ≠ selector && s ≠ "")).any resolve

/-- Model of `_click_with_fallbacks` (lines 31–51): primary then `SEARCH_SUBMITS`
fallbacks, then pressing Enter in a `SEARCH_INPUTS` box. -/
def click_with_fallbacks (resolveClick resolveEnter : String → Bool) (selector : String) : Bool :=
  (selector :: SEARCH_SUBMITS.filter (fun s => s ≠ selector && s ≠ "")).any resolveClick
    || SEARCH_INPUTS.any resolveEnter

/-- Python `min(products, key=lambda x: x["price"])`: first minimum. -/
def minByPrice (best : Product) : List Product → Product
  | [] => best
  | p :: ps => minByPrice (if p.price < best.price then p else best) ps

inductive EngStatus where
  | running
  | done
  | aborted
  | threw (msg : String)
deriving DecidableEq, Repr

structure EngState where
  steps : List Step
  idx : Nat
  res : ExecResult
  t : Nat        -- attempt counter indexing the environment
  r : Nat        -- replan counter indexing the callback
  status : EngStatus
deriving Repr

/-- The dispatch on one step (the body of the inner `try`, lines 380–416):
`Except.error` is an exception reaching the step-level handler. -/
def dispatch (env : Env) (goal : String) (t : Nat) (res : ExecResult) (st : Step) :
    Except String ExecResult :=
  let sel := jsTrim st.selector
  let value := match st.value with | none => goal | some v => if v = "" then goal else v
  match st.action with
  | "goto" =>
    match env.gotoRes t sel with
    | some msg => .error msg
    | none => .ok res
  | "wait_for" =>
    match env.waitRes t sel with
    | some msg => .error msg
    | none => .ok res
  | "fill" =>
    -- the boolean result of the resolver is discarded by the engine
    let _ := fill_with_fallbacks (env.resolveFill t) sel
    let _ := value
    .ok res
  | "click" =>
    let _ := click_with_fallbacks (env.resolveClick t) (env.resolveEnter t) sel
    .ok res
  | "scroll" =>
    match env.scrollRes t with
    | some msg => .error msg
    | none => .ok res
  | "extract" =>
    match env.extractRes t with
    | [] => .error "Extraction failed."
    | p :: ps => .ok { res with data := p :: ps, selected := some (minByPrice p ps) }
  | _ => .ok res    -- unrecognized action: logged, no-op

/-- One iteration of the `while step_idx < len(steps)` loop, including the
step-level exception handler (lines 418–437). -/
def stepOnce (env : Env) (llm : Option (Nat → ReplanOutcome)) (goal : String)
    (s : EngState) : EngState :=
  if s.status ≠ EngStatus.running then s
  else
    match s.steps[s.idx]? with
    | none => { s with status := .done }
    | some st =>
      match dispatch env goal s.t s.res st with
      | .ok res2 => { s with res := res2, idx := s.idx + 1, t := s.t + 1 }
      | .error msg =>
        match llm with
        | some f =>
          match f s.r with
          | .raises m => { s with status := .threw m, t := s.t + 1 }
          | .newPlan [] =>
            { s with status := .aborted, t := s.t + 1,
                     res := { s.res with errors := s.res.errors ++ ["No steps generated during replan."] } }
          | .newPlan (n :: ns) =>
            { s with steps := n :: ns, idx := 0, t := s.t + 1, r := s.r + 1 }
        | none =>
          { s with status := .aborted, t := s.t + 1,
                   res := { s.res with errors := s.res.errors ++ [msg] } }

def engineRun (env : Env) (llm : Option (Nat → ReplanOutcome)) (goal : String) :
    Nat → EngState → EngState
  | 0, s => s
  | fuel + 1, s => engineRun env llm goal fuel (stepOnce env llm goal s)

def initState (steps : List Step) : EngState :=
  ⟨steps, 0, ⟨[], none, []⟩, 0, 0, .running⟩

/-- Model of `execute_plan`: `none` when `fuel` did not reach a terminal state
(the replanning loop is unbounded); `some (.error m)` when an exception
propagated past the engine boundary; `some (.ok r)` for the structured
result. -/
def execute_plan (env : Env) (llm : Option (Nat → ReplanOutcome)) (goal : String)
    (steps : List Step) (fuel : Nat) : Option (Except String ExecResult) :=
  match engineRun env llm goal fuel (initState steps) with
  | ⟨_, _, _, _, _, .running⟩ => none
  | ⟨_, _, _, _, _, .threw m⟩ => some (.error m)
  | ⟨_, _, res, _, _, _⟩ => some (.ok res)

/-! Concrete fixtures used by counterexamples and witnesses. -/

def prodA : Product :=
  ⟨"Alpha hat", "https://www.amazon.com/a", 5⟩

def prodB : Product :=
  ⟨"Beta hat", "https://www.amazon.com/b", 3⟩

/-- An environment in which every browser interaction succeeds and every
extraction attempt yields `[prodA]`. -/
def envAllOk : Env :=
  ⟨fun _ _ => none, fun _ _ => none, fun _ => none,
   fun _ _ => true, fun _ _ => true, fun _ _ => true, fun _ => [prodA]⟩

/-- Navigation raises (as a navigation timeout would). -/
def envGotoFails : Env :=
  { envAllOk with gotoRes := fun _ _ => some "goto timeout" }

/-- Every selector of every resolver candidate list fails to resolve. -/
def envNothingResolves : Env :=
  { envAllOk with resolveFill := fun _ _ => false, resolveClick := fun _ _ => false,
                  resolveEnter := fun _ _ => false }

/-- The first extraction attempt (attempt counter 4, after the four preceding
steps) yields nothing; the retry after replanning succeeds. -/
def envExtractSecondTry : Env :=
  { envAllOk with extractRes := fun t => if t ≤ 4 then [] else [prodA] }

/-- Two successive extractions yield different product lists. -/
def envTwoExtracts : Env :=
  { envAllOk with extractRes := fun t => if t = 0 then [prodA, prodB] else [prodB] }

/-- Navigation raises and extraction never yields products. -/
def envGotoFailsNoExtract : Env :=
  { envGotoFails with extractRes := fun _ => [] }

def gotoStep : Step :=
  ⟨"goto", "https://www.amazon.com", none⟩

def extractStep : Step :=
  ⟨"extract", "", none⟩

def plan5 : List Step :=
  [gotoStep, ⟨"wait_for", "input#twotabsearchtextbox", none⟩,
   ⟨"fill", "input#twotabsearchtextbox", some "hat"⟩,
   ⟨"click", "input#nav-search-submit-button", none⟩, extractStep]

def llmRaises : Option (Nat → ReplanOutcome) :=
  some fun _ => .raises "llm boom"

def llmSingleExtract : Option (Nat → ReplanOutcome) :=
  some fun _ => .newPlan [extractStep]

def goodCard : Card :=
  ⟨some "Alpha hat", some "/a", some "$5.00", false⟩

def goodCard2 : Card :=
  ⟨some "Beta hat", some "https://www.amazon.com/b", some "$3.00", false⟩

def sponsoredCard : Card :=
  ⟨some "Ad hat", some "/ad", some "$1.00", true⟩

def badPriceCard : Card :=
  ⟨some "Free hat", some "/free", some "gratis", false⟩

def samplePage : Page :=
  ⟨"<html>results</html>", true, [goodCard, sponsoredCard, badPriceCard, goodCard2], []⟩

def captchaPage : Page :=
  ⟨"see /errors/validateCaptcha for details", true, [goodCard], []⟩

/-! Derived predicates used to state the claims. -/

def headDigit : List Char → Bool
  | [] => false
  | c :: _ => isDig c

def noDigit (cs : List Char) : Prop :=
  ∀ c ∈ cs, isDig c = false

instance (cs : List Char) : Decidable (noDigit cs) :=
  inferInstanceAs (Decidable (∀ c ∈ cs, isDig c = false))

/-- A card whose resolved price text parses to NaN or to a non-positive
number. -/
def badPrice (c : Card) : Bool :=
  match money c.priceText with
  | none => true
  | some v => decide (v ≤ 0)

/-- A card with a truthy title and a truthy link. -/
def titleLinkOk (c : Card) : Bool :=
  (match c.title with
   | none => false
   | some t => !(jsTrim t == "")) &&
  (match c.href with
   | none => false
   | some h => !(h == ""))

/-- An op-group alternative that only ever consumes a prefix of its input:
on success the remainder is a suffix of the input.  Every alternative of
`priceAlts` has this property. -/
def GoodAlt (a : OpMatcher) : Prop :=
  ∀ cs m r, a cs = some (m, r) → r <:+ cs

/-! Substring machinery: characterisation of `isSubL` and its interaction
with character maps. -/

theorem isPref_iff (n t : List Char) : isPref n t = true ↔ ∃ r, t = n ++ r := by
  induction n generalizing t with
  | nil => simp [isPref]
  | cons a as ih =>
    cases t with
    | nil => simp [isPref]
    | cons b bs =>
      simp only [isPref, Bool.and_eq_true, decide_eq_true_eq, List.cons_append, List.cons.injEq, ih]
      constructor
      · rintro ⟨rfl, r, rfl⟩
        exact ⟨r, rfl, rfl⟩
      · rintro ⟨r, rfl, rfl⟩
        exact ⟨rfl, r, rfl⟩

theorem isSubL_iff (n h : List Char) : isSubL n h = true ↔ ∃ s t, h = s ++ n ++ t := by
  simp only [isSubL, List.any_eq_true]
  constructor
  · rintro ⟨u, hu, hp⟩
    obtain ⟨s, rfl⟩ := (List.mem_tails u h).mp hu
    obtain ⟨t, rfl⟩ := (isPref_iff n u).mp hp
    exact ⟨s, t, by simp⟩
  · rintro ⟨s, t, rfl⟩
    refine ⟨n ++ t, (List.mem_tails _ _).mpr ⟨s, by simp⟩, (isPref_iff _ _).mpr ⟨t, rfl⟩⟩

theorem isSubL_map (f : Char → Char) {n h : List Char} (hs : isSubL n h = true) :
    isSubL (n.map f) (h.map f) = true := by
  obtain ⟨s, t, rfl⟩ := (isSubL_iff n h).mp hs
  exact (isSubL_iff _ _).mpr ⟨s.map f, t.map f, by simp⟩

theorem isSubL_trans {a b c : List Char} (h1 : isSubL a b = true) (h2 : isSubL b c = true) :
    isSubL a c = true := by
  obtain ⟨s, t, rfl⟩ := (isSubL_iff a b).mp h1
  obtain ⟨u, v, rfl⟩ := (isSubL_iff _ c).mp h2
  exact (isSubL_iff _ _).mpr ⟨u ++ s, t ++ v, by simp⟩

/-! Extractor lemmas. -/

theorem cardToProduct_eq_none_iff (c : Card) :
    cardToProduct c = none ↔
      (c.title = none ∨ (∃ t, c.title = some t ∧ jsTrim t = "") ∨
       c.href = none ∨ c.href = some "" ∨
       money c.priceText = none ∨ (∃ v, money c.priceText = some v ∧ v ≤ 0) ∨
       c.sponsored = true) := by
  rcases c with ⟨ct, ch, cp, csp⟩
  rcases ct with _ | t
  · simp [cardToProduct]
  rcases ch with _ | h
  · simp [cardToProduct]
  rcases hm : money cp with _ | v
  · by_cases h1 : jsTrim t = "" <;> by_cases h2 : h = "" <;>
      cases h3 : h.startsWith "http" <;>
      simp [cardToProduct, hm, h1, h2, h3]
  · by_cases h1 : jsTrim t = "" <;> by_cases h2 : h = "" <;>
      cases h3 : h.startsWith "http" <;> by_cases h4 : v ≤ 0 <;> cases csp <;>
      simp [cardToProduct, hm, h1, h2, h3, h4, or_comm]

theorem cardToProduct_none_of_ok {c : Card} (hok : titleLinkOk c = true) :
    cardToProduct c = none ↔ (c.sponsored = true ∨ badPrice c = true) := by
  have h0 := cardToProduct_eq_none_iff c
  rcases c with ⟨ct, ch, cp, csp⟩
  rcases ct with _ | t
  · simp [titleLinkOk] at hok
  rcases ch with _ | h
  · simp [titleLinkOk] at hok
  simp only [titleLinkOk, Bool.and_eq_true] at hok
  obtain ⟨hok1, hok2⟩ := hok
  simp only [Bool.not_eq_true', beq_eq_false_iff_ne, ne_eq] at hok1 hok2
  rw [h0]
  simp only [badPrice]
  rcases hm : money cp with _ | v <;> simp [hm, hok1, hok2] <;> tauto

theorem cardToProduct_pos {c : Card} {p : Product} (h : cardToProduct c = some p) :
    0 < p.price := by
  rcases c with ⟨ct, ch, cp, csp⟩
  rcases ct with _ | t
  · simp [cardToProduct] at h
  rcases ch with _ | hh
  · simp [cardToProduct] at h
  rcases hm : money cp with _ | v
  · simp [cardToProduct, hm] at h
  by_cases h1 : jsTrim t = "" <;> by_cases h2 : hh = "" <;>
    by_cases h3 : hh.startsWith "http" <;> by_cases hv : v ≤ 0 <;> rcases csp with _ | _ <;>
    simp [cardToProduct, hm, h1, h2, h3, hv] at h <;>
    (rw [← h]; exact not_le.mp hv)

theorem count_cards (cards : List Card)
    (hok : ∀ c ∈ cards, titleLinkOk c = true)
    (hdisj : ∀ c ∈ cards, ¬(c.sponsored = true ∧ badPrice c = true)) :
    (cards.filterMap cardToProduct).length
      + (cards.filter (fun c => c.sponsored)).length
      + (cards.filter (fun c => badPrice c)).length = cards.length := by
  induction cards with
  | nil => simp
  | cons c cs ih =>
    have hc := cardToProduct_none_of_ok (hok c (by simp))
    have hd := hdisj c (by simp)
    have ihr := ih (fun x hx => hok x (by simp [hx])) (fun x hx => hdisj x (by simp [hx]))
    rcases hsp : c.sponsored with _ | _
    · rcases hbp : badPrice c with _ | _
      · have hsome : cardToProduct c ≠ none := by
          simp only [ne_eq, hc]
          simp [hsp, hbp]
        rcases hcp : cardToProduct c with _ | p
        · exact absurd hcp hsome
        · simp [List.filterMap_cons, List.filter_cons, hcp, hsp, hbp]
          omega
      · have hnone : cardToProduct c = none := hc.mpr (Or.inr hbp)
        simp [List.filterMap_cons, List.filter_cons, hnone, hsp, hbp]
        omega
    · have hbp : badPrice c = false := by
        rcases hb : badPrice c with _ | _
        · rfl
        · exact absurd ⟨hsp, hb⟩ hd
      have hnone : cardToProduct c = none := hc.mpr (Or.inl hsp)
      simp [List.filterMap_cons, List.filter_cons, hnone, hsp, hbp]
      omega

/-- C7: a page whose raw markup contains any of the fixed block-marker
strings makes the Extractor return `[]` immediately: the result is empty for
every card population, so no field extraction takes place.  (The fourth
marker contains capital letters, so its own lowercased comparison can never
fire, but any markup containing it also contains `captcha` after lowering,
which fires the first marker.) -/
theorem c7_block_short_circuit (page : Page) (goal : String)
    (h : ∃ b ∈ block_markers, isSubL b.toList page.html.toList = true) :
    extract_products page goal = [] := by
  obtain ⟨b, hb, hsub⟩ := h
  have hlow : ∀ m : String, m ∈ block_markers →
      isSubL m.toList (lowerL page.html) = true → blockedHtml page.html = true := by
    intro m hmem hm
    unfold blockedHtml
    rw [List.any_eq_true]
    exact ⟨m, hmem, hm⟩
  have hmap := isSubL_map Char.toLower hsub
  have hblocked : blockedHtml page.html = true := by
    simp only [block_markers, List.mem_cons, List.not_mem_nil, or_false] at hb
    rcases hb with rfl | rfl | rfl | rfl
    · refine hlow "captcha" (by simp [block_markers]) ?_
      have e : ("captcha".toList.map Char.toLower) = "captcha".toList := by decide
      rw [e] at hmap
      exact hmap
    · refine hlow "robot check" (by simp [block_markers]) ?_
      have e : ("robot check".toList.map Char.toLower) = "robot check".toList := by decide
      rw [e] at hmap
      exact hmap
    · refine hlow "enter the characters you see" (by simp [block_markers]) ?_
      have e : ("enter the characters you see".toList.map Char.toLower)
          = "enter the characters you see".toList := by decide
      rw [e] at hmap
      exact hmap
    · refine hlow "captcha" (by simp [block_markers]) ?_
      exact isSubL_trans (by decide) hmap
  simp [extract_products, hblocked]

/-- Witness for C7 at a concrete blocked page. -/
theorem c7_block_short_circuit_witness :
    extract_products captchaPage "cheapest hat" = [] :=
  c7_block_short_circuit captchaPage "cheapest hat"
    ⟨"/errors/validateCaptcha", by decide, by decide⟩

/-- C6: on a results page (no block marker, containers found, goal without a
price bound) whose `N` cards all carry a truthy title and link, with `K`
sponsored cards and `M` cards with NaN or non-positive price (the two sets
disjoint), the Extractor returns exactly `N - K - M` products, every returned
product has positive price, the output is sorted ascending by price, and a
card is rejected exactly when its title is missing/blank, its link is
missing/empty, its price is NaN or non-positive, or it is sponsored.  The
fallback card list is required to be a sub-collection of the primary one,
which holds on the target page because the fallback selector
`div.s-card-container` is one of the primary selectors. -/
theorem c6_extractor_filters (page : Page) (goal : String)
    (hblock : blockedHtml page.html = false)
    (hcont : page.containersFound = true)
    (hmin : (parse_price_filters goal).1 = none)
    (hmax : (parse_price_filters goal).2.1 = none)
    (hok : ∀ c ∈ page.cards, titleLinkOk c = true)
    (hdisj : ∀ c ∈ page.cards, ¬(c.sponsored = true ∧ badPrice c = true))
    (hfb : page.fallbackCards.Sublist page.cards) :
    (extract_products page goal).length
        = page.cards.length - (page.cards.filter (fun c => c.sponsored)).length
          - (page.cards.filter (fun c => badPrice c)).length
      ∧ (∀ p ∈ extract_products page goal, 0 < p.price)
      ∧ List.Sorted prodLE (extract_products page goal)
      ∧ (∀ c : Card, cardToProduct c = none ↔
          (c.title = none ∨ (∃ t, c.title = some t ∧ jsTrim t = "") ∨
           c.href = none ∨ c.href = some "" ∨
           money c.priceText = none ∨ (∃ v, money c.priceText = some v ∧ v ≤ 0) ∨
           c.sponsored = true)) := by
  have hcount := count_cards page.cards hok hdisj
  by_cases hemp : page.cards.filterMap cardToProduct = []
  · have hfbnil : page.fallbackCards.filterMap cardToProduct = [] := by
      have hsub := hfb.filterMap cardToProduct
      rw [hemp] at hsub
      exact List.sublist_nil.mp hsub
    have hres : extract_products page goal = [] := by
      simp [extract_products, hblock, hcont, hemp, hfbnil]
    rw [hres]
    refine ⟨?_, by simp, by simp, fun c => cardToProduct_eq_none_iff c⟩
    rw [hemp] at hcount
    simp only [List.length_nil, Nat.zero_add] at hcount
    simp only [List.length_nil]
    omega
  · have hval : ∀ p ∈ page.cards.filterMap cardToProduct,
        (withinBounds (parse_price_filters goal).1 (parse_price_filters goal).2.1 p
          && decide ((0 : ℚ) < p.price)) = true := by
      intro p hp
      obtain ⟨c, _, hcp⟩ := List.mem_filterMap.mp hp
      have hpos := cardToProduct_pos hcp
      rw [hmin, hmax]
      simp [withinBounds, hpos]
    have hfilter : (page.cards.filterMap cardToProduct).filter
        (fun p => withinBounds (parse_price_filters goal).1 (parse_price_filters goal).2.1 p
          && decide ((0 : ℚ) < p.price)) = page.cards.filterMap cardToProduct :=
      List.filter_eq_self.mpr hval
    have hres : extract_products page goal
        = sortByPrice (page.cards.filterMap cardToProduct) := by
      simp [extract_products, hblock, hcont, hemp, hfilter]
    rw [hres]
    refine ⟨?_, ?_, ?_, fun c => cardToProduct_eq_none_iff c⟩
    · rw [sortByPrice, List.length_insertionSort]
      omega
    · intro p hp
      rw [sortByPrice, List.mem_insertionSort] at hp
      obtain ⟨c, _, hcp⟩ := List.mem_filterMap.mp hp
      exact cardToProduct_pos hcp
    · exact List.sorted_insertionSort prodLE _

/-- Witness for C6 at a concrete four-card page (one sponsored, one with
unparseable price, two valid). -/
theorem c6_extractor_filters_witness :
    (extract_products samplePage "cheapest hat").length
        = samplePage.cards.length - (samplePage.cards.filter (fun c => c.sponsored)).length
          - (samplePage.cards.filter (fun c => badPrice c)).length
      ∧ (∀ p ∈ extract_products samplePage "cheapest hat", 0 < p.price)
      ∧ List.Sorted prodLE (extract_products samplePage "cheapest hat") := by
  have h := c6_extractor_filters samplePage "cheapest hat" (by decide) rfl (by decide) (by decide)
      (by decide) (by decide) (List.nil_sublist _)
  exact ⟨h.1, h.2.1, h.2.2.1⟩

/-! Engine lemmas. -/

theorem stepOnce_terminal {env : Env} {llm : Option (Nat → ReplanOutcome)} {goal : String}
    {s : EngState} (h : s.status ≠ EngStatus.running) :
    stepOnce env llm goal s = s := by
  rw [stepOnce, if_pos h]

theorem engineRun_terminal {env : Env} {llm : Option (Nat → ReplanOutcome)} {goal : String}
    {s : EngState} (h : s.status ≠ EngStatus.running) :
    ∀ n, engineRun env llm goal n s = s
  | 0 => rfl
  | n + 1 => by rw [engineRun, stepOnce_terminal h, engineRun_terminal h n]

theorem dispatch_ok_errors {env : Env} {goal : String} {t : Nat} {res : ExecResult} {st : Step}
    {res2 : ExecResult} (h : dispatch env goal t res st = Except.ok res2) :
    res2.errors = res.errors := by
  simp only [dispatch] at h
  split at h <;> (try split at h) <;> simp at h <;> (try subst h) <;> simp_all

theorem dispatch_ok_selected {env : Env} {goal : String} {t : Nat} {res : ExecResult} {st : Step}
    {res2 : ExecResult} (hex : env.extractRes t = []) (h : dispatch env goal t res st = Except.ok res2) :
    res2.selected = res.selected := by
  simp only [dispatch] at h
  split at h <;> (try split at h) <;> simp at h <;> (try subst h) <;> simp_all

theorem stepOnce_preserve_no_throw {env : Env} {llm : Option (Nat → ReplanOutcome)} {goal : String}
    {s : EngState} (hllm : ∀ f, llm = some f → ∀ n m, f n ≠ ReplanOutcome.raises m)
    (h : ∀ m, s.status ≠ EngStatus.threw m) :
    ∀ m, (stepOnce env llm goal s).status ≠ EngStatus.threw m := by
  intro m
  by_cases hs : s.status = EngStatus.running
  · cases hlook : s.steps[s.idx]? with
    | none => simp [stepOnce, hs, hlook]
    | some st =>
      cases hdisp : dispatch env goal s.t s.res st with
      | ok r2 =>
        simp only [stepOnce, hs, hlook, hdisp]
        simpa using h m
      | error msg =>
        cases hl : llm with
        | none => simp [stepOnce, hs, hlook, hdisp]
        | some f =>
          cases hf : f s.r with
          | raises m2 => exact absurd hf (hllm f hl s.r m2)
          | newPlan ns =>
            cases ns with
            | nil => simp [stepOnce, hs, hlook, hdisp, hf]
            | cons a as =>
              simp only [stepOnce, hs, hlook, hdisp, hf]
              simpa using h m
  · rw [stepOnce_terminal hs]
    exact h m

/-- Characterisation of one engine iteration when no replanning callback is
configured. -/
theorem stepOnce_none_char (env : Env) (goal : String) (s : EngState)
    (hs : s.status = EngStatus.running) :
    (∃ st res2, s.steps[s.idx]? = some st ∧ dispatch env goal s.t s.res st = Except.ok res2
        ∧ stepOnce env none goal s = { s with res := res2, idx := s.idx + 1, t := s.t + 1 })
    ∨ (∃ st msg, s.steps[s.idx]? = some st ∧ dispatch env goal s.t s.res st = Except.error msg
        ∧ stepOnce env none goal s
            = { s with status := EngStatus.aborted, t := s.t + 1,
                       res := { s.res with errors := s.res.errors ++ [msg] } })
    ∨ (s.steps[s.idx]? = none ∧ stepOnce env none goal s = { s with status := EngStatus.done }) := by
  cases hlook : s.steps[s.idx]? with
  | none =>
    right; right
    exact ⟨rfl, by simp [stepOnce, hs, hlook]⟩
  | some st =>
    cases hdisp : dispatch env goal s.t s.res st with
    | ok r2 =>
      left
      exact ⟨st, r2, rfl, hdisp, by simp [stepOnce, hs, hlook, hdisp]⟩
    | error msg =>
      right; left
      exact ⟨st, msg, rfl, hdisp, by simp [stepOnce, hs, hlook, hdisp]⟩

/-- Invariant run lemma for plans executed without a replanning callback:
an aborted run records exactly the one failure message, and if no extraction
ever yields a product the `selected` field stays unset. -/
theorem run_none_aborted {env : Env} {goal : String} :
    ∀ (fuel : Nat) (s : EngState), s.status = EngStatus.running → s.res.errors = [] →
      (engineRun env none goal fuel s).status = EngStatus.aborted →
      (engineRun env none goal fuel s).res.errors.length = 1
        ∧ ((∀ t, env.extractRes t = []) → s.res.selected = none →
            (engineRun env none goal fuel s).res.selected = none) := by
  intro fuel
  induction fuel with
  | zero =>
    intro s hs herr hab
    rw [engineRun] at hab
    rw [hs] at hab
    cases hab
  | succ n ih =>
    intro s hs herr hab
    rw [engineRun] at hab ⊢
    rcases stepOnce_none_char env goal s hs with
      ⟨st, r2, hlook, hdisp, heq⟩ | ⟨st, msg, hlook, hdisp, heq⟩ | ⟨hlook, heq⟩
    · rw [heq] at hab ⊢
      have herr2 : ({ s with res := r2, idx := s.idx + 1, t := s.t + 1 } : EngState).res.errors = [] := by
        have he := dispatch_ok_errors hdisp
        simpa [he] using herr
      have hres := ih _ (by simpa using hs) herr2 hab
      refine ⟨hres.1, fun hex hsel => hres.2 hex ?_⟩
      have hselp := dispatch_ok_selected (hex s.t) hdisp
      simpa [hselp] using hsel
    · rw [heq] at hab ⊢
      rw [engineRun_terminal (by simp)]
      constructor
      · simp [herr]
      · intro hex hsel
        simpa using hsel
    · rw [heq] at hab ⊢
      rw [engineRun_terminal (by simp)] at hab
      cases hab

/-- C1 (amended): exceptions raised by step handlers never escape the engine
(the result is a structured record), provided the replanning callback itself
never raises; when the callback raises, the exception propagates past
`execute_plan` (see the counterexample). -/
theorem c1_no_escape (env : Env) (llm : Option (Nat → ReplanOutcome)) (goal : String)
    (hllm : ∀ f, llm = some f → ∀ n m, f n ≠ ReplanOutcome.raises m) :
    ∀ (steps : List Step) (fuel : Nat) (m : String),
      execute_plan env llm goal steps fuel ≠ some (Except.error m) := by
  have hrun : ∀ (fuel : Nat) (s : EngState), (∀ m, s.status ≠ EngStatus.threw m) →
      ∀ m, (engineRun env llm goal fuel s).status ≠ EngStatus.threw m := by
    intro fuel
    induction fuel with
    | zero => intro s h m; exact h m
    | succ n ih =>
      intro s h m
      rw [engineRun]
      exact ih _ (stepOnce_preserve_no_throw hllm h) m
  intro steps fuel m hcontra
  have hnt := hrun fuel (initState steps) (by intro m'; simp [initState]) m
  unfold execute_plan at hcontra
  rcases hF : engineRun env llm goal fuel (initState steps) with ⟨a, b, c, d, e, st⟩
  rw [hF] at hcontra hnt
  cases st <;> simp_all

/-- Counterexample to C1 as stated: when the replanning callback raises after
a step failure, the exception propagates past the engine boundary instead of
being recorded in the error list — `execute_plan` yields the raised error,
not a structured result. -/
theorem c1_counterexample :
    execute_plan envGotoFails llmRaises "hat" [gotoStep] 5 = some (Except.error "llm boom") := by
  rfl

/-- Witness for the amended C1: with no callback configured, a failing plan
still never yields a propagated exception. -/
theorem c1_no_escape_witness :
    execute_plan envGotoFails none "hat" [gotoStep] 5 ≠ some (Except.error "goto timeout") :=
  c1_no_escape envGotoFails none "hat" (fun _ hf => nomatch hf) [gotoStep] 5 "goto timeout"

/-- C2 (amended): when every candidate selector fails, the resolvers return
`false` without raising, but the engine discards the boolean: a `fill` or
`click` step always advances the step index with the result untouched, so
total resolution failure is counted as a success and never reaches the
replanning/abort path. -/
theorem c2_resolution_failure_ignored :
    (∀ (env : Env) (llm : Option (Nat → ReplanOutcome)) (goal : String) (s : EngState) (st : Step),
        s.status = EngStatus.running → s.steps[s.idx]? = some st →
        st.action = "fill" ∨ st.action = "click" →
        stepOnce env llm goal s = { s with idx := s.idx + 1, t := s.t + 1 })
    ∧ (∀ sel : String, fill_with_fallbacks (fun _ => false) sel = false)
    ∧ (∀ sel : String, click_with_fallbacks (fun _ => false) (fun _ => false) sel = false) := by
  refine ⟨?_, ?_, ?_⟩
  · intro env llm goal s st hs hlook hact
    have hd : dispatch env goal s.t s.res st = Except.ok s.res := by
      rcases hact with hact | hact <;> simp [dispatch, hact]
    simp [stepOnce, hs, hlook, hd]
  · intro sel
    simp [fill_with_fallbacks]
  · intro sel
    simp [click_with_fallbacks]

/-- Counterexample to C2 as stated: a plan whose `fill` and `click` steps
find no usable selector (every candidate fails, both resolvers report
`false`) completes with an empty error list — the engine never enters the
replanning/abort failure path, contrary to the claim that exhausted
candidates surface as a step failure. -/
theorem c2_counterexample :
    execute_plan envNothingResolves none "hat"
        [⟨"fill", "input#foo", some "x"⟩, ⟨"click", "button#go", none⟩] 5
        = some (Except.ok ⟨[], none, []⟩)
      ∧ fill_with_fallbacks (envNothingResolves.resolveFill 0) (jsTrim "input#foo") = false
      ∧ click_with_fallbacks (envNothingResolves.resolveClick 1)
          (envNothingResolves.resolveEnter 1) (jsTrim "button#go") = false :=
  ⟨rfl, rfl, rfl⟩

/-- Witness for the amended C2 at concrete failing-resolver states, one per
step kind: a `fill` step and a `click` step each advance the index with the
result untouched while their resolvers report total failure. -/
theorem c2_resolution_failure_ignored_witness :
    (stepOnce envNothingResolves none "hat" (initState [⟨"fill", "input#foo", some "x"⟩])
        = { initState [⟨"fill", "input#foo", some "x"⟩] with idx := 1, t := 1 }
      ∧ stepOnce envNothingResolves none "hat" (initState [⟨"click", "button#go", none⟩])
        = { initState [⟨"click", "button#go", none⟩] with idx := 1, t := 1 })
      ∧ fill_with_fallbacks (fun _ => false) "input#foo" = false
      ∧ click_with_fallbacks (fun _ => false) (fun _ => false) "button#go" = false :=
  ⟨⟨c2_resolution_failure_ignored.1 envNothingResolves none "hat" _
        ⟨"fill", "input#foo", some "x"⟩ rfl rfl (Or.inl rfl),
    c2_resolution_failure_ignored.1 envNothingResolves none "hat" _
        ⟨"click", "button#go", none⟩ rfl rfl (Or.inr rfl)⟩,
    c2_resolution_failure_ignored.2.1 "input#foo",
    c2_resolution_failure_ignored.2.2 "button#go"⟩

/-- C5: when a step fails and the callback returns a non-empty plan, the
engine replaces the plan wholesale and resets the step index to 0; in the
concrete five-step scenario whose `extract` fails once and whose callback
returns the single-step `[extract]` plan that then succeeds, the final
result has an empty error list and a non-null selected product. -/
theorem c5_replan_wholesale :
    (∀ (env : Env) (f : Nat → ReplanOutcome) (goal : String) (s : EngState) (st : Step)
        (msg : String) (n : Step) (ns : List Step),
        s.status = EngStatus.running → s.steps[s.idx]? = some st →
        dispatch env goal s.t s.res st = Except.error msg →
        f s.r = ReplanOutcome.newPlan (n :: ns) →
        stepOnce env (some f) goal s
          = { s with steps := n :: ns, idx := 0, t := s.t + 1, r := s.r + 1 })
    ∧ execute_plan envExtractSecondTry llmSingleExtract "hat" plan5 10
        = some (Except.ok ⟨[prodA], some prodA, []⟩) := by
  constructor
  · intro env f goal s st msg n ns hs hlook hdisp hf
    simp [stepOnce, hs, hlook, hdisp, hf]
  · rfl

/-- Witness for C5: the failing extract attempt at step index 4 swaps in the
one-step replacement plan and resets the index to 0. -/
theorem c5_replan_wholesale_witness :
    stepOnce envExtractSecondTry llmSingleExtract "hat"
        ⟨plan5, 4, ⟨[], none, []⟩, 4, 0, EngStatus.running⟩
        = ⟨[extractStep], 0, ⟨[], none, []⟩, 5, 1, EngStatus.running⟩
      ∧ execute_plan envExtractSecondTry llmSingleExtract "hat" plan5 10
        = some (Except.ok ⟨[prodA], some prodA, []⟩) :=
  ⟨c5_replan_wholesale.1 envExtractSecondTry (fun _ => ReplanOutcome.newPlan [extractStep]) "hat"
      ⟨plan5, 4, ⟨[], none, []⟩, 4, 0, EngStatus.running⟩ extractStep "Extraction failed."
      extractStep [] rfl rfl rfl rfl,
    c5_replan_wholesale.2⟩

/-- C8 (amended): with no replanning callback, an aborted run has exactly one
entry in its error list; `selected` is unset provided no extraction attempt
ever produced a product (a successful `extract` before the failing step
leaves `selected` set, see the counterexample). -/
theorem c8_abort_single_error (env : Env) (goal : String) (steps : List Step) (fuel : Nat)
    (habort : (engineRun env none goal fuel (initState steps)).status = EngStatus.aborted) :
    (engineRun env none goal fuel (initState steps)).res.errors.length = 1
      ∧ ((∀ t, env.extractRes t = []) →
          (engineRun env none goal fuel (initState steps)).res.selected = none) := by
  have h := run_none_aborted fuel (initState steps) rfl rfl habort
  exact ⟨h.1, fun hex => h.2 hex rfl⟩

/-- Counterexample to C8 as stated: if a successful `extract` precedes the
failing step, the aborted result still carries the selected product — the
error list has exactly one entry but `selected` is not unset. -/
theorem c8_counterexample :
    execute_plan envGotoFails none "hat" [extractStep, gotoStep] 5
        = some (Except.ok ⟨[prodA], some prodA, ["goto timeout"]⟩) := by
  rfl

/-- Witness for the amended C8 at a concrete aborted run. -/
theorem c8_abort_single_error_witness :
    (engineRun envGotoFailsNoExtract none "hat" 5 (initState [gotoStep])).res.errors.length = 1
      ∧ (engineRun envGotoFailsNoExtract none "hat" 5 (initState [gotoStep])).res.selected = none :=
  have h := c8_abort_single_error envGotoFailsNoExtract "hat" [gotoStep] 5 rfl
  ⟨h.1, h.2 fun _ => rfl⟩

/-- C9: an unrecognized action is a no-op success — the step index advances,
the result record is untouched — and the concrete plan of one unknown-action
step followed by a succeeding `goto` finishes with an empty error list. -/
theorem c9_unknown_action_noop :
    (∀ (env : Env) (llm : Option (Nat → ReplanOutcome)) (goal : String) (s : EngState) (st : Step),
        s.status = EngStatus.running → s.steps[s.idx]? = some st →
        st.action ∉ ["goto", "wait_for", "fill", "click", "scroll", "extract"] →
        stepOnce env llm goal s = { s with idx := s.idx + 1, t := s.t + 1 })
    ∧ execute_plan envAllOk none "hat" [⟨"dance", "x", none⟩, gotoStep] 5
        = some (Except.ok ⟨[], none, []⟩) := by
  constructor
  · intro env llm goal s st hs hlook hact
    simp only [List.mem_cons, List.not_mem_nil, or_false, not_or] at hact
    obtain ⟨h1, h2, h3, h4, h5, h6⟩ := hact
    have hd : dispatch env goal s.t s.res st = Except.ok s.res := by
      unfold dispatch
      split <;> simp_all
    simp [stepOnce, hs, hlook, hd]
  · rfl

/-- Witness for C9: the unknown `dance` action advances the index without
touching the result. -/
theorem c9_unknown_action_noop_witness :
    stepOnce envAllOk none "hat" (initState [⟨"dance", "x", none⟩, gotoStep])
        = { initState [⟨"dance", "x", none⟩, gotoStep] with idx := 1, t := 1 }
      ∧ execute_plan envAllOk none "hat" [⟨"dance", "x", none⟩, gotoStep] 5
        = some (Except.ok ⟨[], none, []⟩) :=
  ⟨c9_unknown_action_noop.1 envAllOk none "hat" _ ⟨"dance", "x", none⟩ rfl rfl (by decide),
    c9_unknown_action_noop.2⟩

/-- C10: a successful `extract` overwrites the result's `data` and `selected`
wholesale — the new state is independent of the previously recorded products —
and in the concrete two-extract plan the final result carries exactly the
second extraction's products with its cheapest as `selected`. -/
theorem c10_data_overwritten :
    (∀ (env : Env) (llm : Option (Nat → ReplanOutcome)) (goal : String) (s : EngState) (st : Step)
        (p : Product) (ps : List Product),
        s.status = EngStatus.running → s.steps[s.idx]? = some st → st.action = "extract" →
        env.extractRes s.t = p :: ps →
        stepOnce env llm goal s
          = { s with res := { data := p :: ps, selected := some (minByPrice p ps),
                              errors := s.res.errors },
                     idx := s.idx + 1, t := s.t + 1 })
    ∧ execute_plan envTwoExtracts none "hat" [extractStep, extractStep] 5
        = some (Except.ok ⟨[prodB], some prodB, []⟩) := by
  constructor
  · intro env llm goal s st p ps hs hlook hact hex
    have hd : dispatch env goal s.t s.res st
        = Except.ok { s.res with data := p :: ps, selected := some (minByPrice p ps) } := by
      simp [dispatch, hact, hex]
    simp [stepOnce, hs, hlook, hd]
  · rfl

/-! Parser meta-theory: properties of the character-level matchers needed to
settle the price-parsing claims.  Headline facts: a match always consumes at
least one character and requires a digit; `PRICE_RE.sub` leaves no digit
behind; and on goals of the shape `q ++ "under 30"` with `q` digit-free the
leftmost price match is exactly the trailing phrase. -/

theorem isSpc_of_isDig {c : Char} (h : isDig c = true) : isSpc c = false := by
  by_contra hc
  simp only [Bool.not_eq_false, isSpc, Bool.or_eq_true, decide_eq_true_eq] at hc
  have hnot : ¬ isDig c = true := by
    rcases hc with ((((hc | hc) | hc) | hc) | hc) | hc <;> subst hc <;> decide
  exact hnot h

theorem ne_dollar_of_isDig {c : Char} (h : isDig c = true) : c ≠ '$' := by
  intro hc
  subst hc
  exact absurd h (by decide)

theorem dropWhile_head_false {p : Char → Bool} :
    ∀ {l a : List Char} {x : Char}, l.dropWhile p = x :: a → p x = false := by
  intro l
  induction l with
  | nil => intro a x h; cases h
  | cons b l2 ih =>
    intro a x h
    by_cases hb : p b = true
    · rw [List.dropWhile_cons, if_pos hb] at h
      exact ih h
    · rw [List.dropWhile_cons, if_neg hb] at h
      cases h
      simpa using hb

theorem sepAfter_suffix (cs : List Char) : sepAfter cs <:+ cs := by
  have h1 : cs.dropWhile isSpc <:+ cs := List.dropWhile_suffix isSpc
  unfold sepAfter
  split
  · rename_i r2 heq
    exact ((List.dropWhile_suffix isSpc).trans (List.suffix_cons '$' r2)).trans (heq ▸ h1)
  · exact h1

theorem dollarSpaces_suffix (cs : List Char) : dollarSpaces cs <:+ cs := by
  unfold dollarSpaces
  split
  · rename_i r
    exact (List.dropWhile_suffix isSpc).trans (List.suffix_cons '$' r)
  · exact List.dropWhile_suffix isSpc

theorem litCI_decomp : ∀ (p cs m r : List Char), litCI p cs = some (m, r) → cs = m ++ r := by
  intro p
  induction p with
  | nil =>
    intro cs m r h
    simp only [litCI, Option.some.injEq, Prod.mk.injEq] at h
    obtain ⟨rfl, rfl⟩ := h
    rfl
  | cons a as ih =>
    intro cs m r h
    cases cs with
    | nil => simp [litCI] at h
    | cons c cs2 =>
      simp only [litCI] at h
      by_cases hc : c.toLower = a
      · rw [if_pos hc] at h
        cases hl : litCI as cs2 with
        | none => rw [hl] at h; cases h
        | some pr =>
          obtain ⟨m2, r2⟩ := pr
          rw [hl] at h
          simp only [Option.some.injEq, Prod.mk.injEq] at h
          obtain ⟨rfl, rfl⟩ := h
          rw [List.cons_append, ← ih cs2 m2 r2 hl]
      · rw [if_neg hc] at h
        cases h

theorem litCI_suffix {p cs m r : List Char} (h : litCI p cs = some (m, r)) : r <:+ cs :=
  ⟨m, (litCI_decomp p cs m r h).symm⟩

theorem spaces1_decomp {cs sp r : List Char} (h : spaces1 cs = some (sp, r)) :
    sp = cs.takeWhile isSpc ∧ r = cs.dropWhile isSpc := by
  cases cs with
  | nil => cases h
  | cons c cs2 =>
    simp only [spaces1] at h
    by_cases hc : isSpc c = true
    · rw [if_pos hc] at h
      simp only [Option.some.injEq, Prod.mk.injEq] at h
      exact ⟨h.1.symm, h.2.symm⟩
    · rw [if_neg hc] at h
      cases h

theorem wordPair_suffix {w1 w2 cs m r : List Char} (h : wordPair w1 w2 cs = some (m, r)) :
    r <:+ cs := by
  unfold wordPair at h
  split at h
  · cases h
  · rename_i m1 r1 h1
    split at h
    · cases h
    · rename_i sp r2 h2
      split at h
      · cases h
      · rename_i m3 r3 h3
        simp only [Option.some.injEq, Prod.mk.injEq] at h
        obtain ⟨-, rfl⟩ := h
        have hs3 : r3 <:+ r2 := litCI_suffix h3
        have hs2 : r2 <:+ r1 := by
          rw [(spaces1_decomp h2).2]
          exact List.dropWhile_suffix isSpc
        exact (hs3.trans hs2).trans (litCI_suffix h1)

theorem goodAlt_litCI (p : List Char) : GoodAlt (litCI p) :=
  fun _ _ _ h => litCI_suffix h

theorem goodAlt_wordPair (w1 w2 : List Char) : GoodAlt (wordPair w1 w2) :=
  fun _ _ _ h => wordPair_suffix h

theorem goodAlt_empty : GoodAlt (fun cs => some ([], cs)) := by
  intro cs m r h
  cases h
  exact List.suffix_refl cs

theorem priceAlts_good : ∀ a ∈ priceAlts, GoodAlt a := by
  intro a ha
  simp only [priceAlts, List.mem_cons, List.not_mem_nil, or_false] at ha
  rcases ha with rfl | rfl | rfl | rfl | rfl | rfl | rfl | rfl | rfl | rfl | rfl | rfl
  exacts [goodAlt_litCI _, goodAlt_litCI _, goodAlt_litCI _, goodAlt_litCI _,
    goodAlt_wordPair _ _, goodAlt_wordPair _ _, goodAlt_wordPair _ _,
    goodAlt_litCI _, goodAlt_litCI _, goodAlt_litCI _, goodAlt_litCI _, goodAlt_empty]

theorem matchNum_none_of_head {cs : List Char} (h : headDigit cs = false) :
    matchNum cs = none := by
  cases cs with
  | nil => rfl
  | cons c cs2 =>
    simp only [headDigit] at h
    unfold matchNum
    simp [List.takeWhile_cons, h]

theorem matchNum_ne_none {c : Char} {cs2 : List Char} (hc : isDig c = true) :
    matchNum (c :: cs2) ≠ none := by
  unfold matchNum
  rw [List.takeWhile_cons, if_pos hc]
  simp only [List.isEmpty_cons, Bool.false_eq_true, if_false]
  split <;> (try split) <;> simp

theorem matchNum_lt {cs r : List Char} {v : ℚ} (h : matchNum cs = some (v, r)) :
    r.length < cs.length := by
  unfold matchNum at h
  by_cases h0 : (cs.takeWhile isDig).isEmpty = true
  · rw [if_pos h0] at h
    cases h
  · rw [if_neg h0] at h
    have h1 : (cs.dropWhile isDig).length < cs.length := by
      cases cs with
      | nil => simp at h0
      | cons c cs2 =>
        rw [List.takeWhile_cons] at h0
        by_cases hc : isDig c = true
        · rw [List.dropWhile_cons, if_pos hc]
          exact Nat.lt_succ_of_le (List.dropWhile_sublist isDig).length_le
        · rw [if_neg hc] at h0
          simp at h0
    split at h
    · rename_i r2 heq
      split at h
      · simp only [Option.some.injEq, Prod.mk.injEq] at h
        obtain ⟨-, rfl⟩ := h
        rw [← heq]
        exact h1
      · simp only [Option.some.injEq, Prod.mk.injEq] at h
        obtain ⟨-, rfl⟩ := h
        have h2 : (r2.drop ((r2.takeWhile isDig).take 2).length).length ≤ r2.length := by
          simp [List.length_drop]
        rw [heq] at h1
        simp only [List.length_cons] at h1 ⊢
        omega
    · simp only [Option.some.injEq, Prod.mk.injEq] at h
      obtain ⟨-, rfl⟩ := h
      exact h1

theorem noDigit_suffix {cs u : List Char} (h : noDigit cs) (hs : u <:+ cs) : noDigit u :=
  fun c hc => h c (hs.subset hc)

theorem headDigit_false_of_noDigit {cs : List Char} (h : noDigit cs) : headDigit cs = false := by
  cases cs with
  | nil => rfl
  | cons c cs2 => simpa [headDigit] using h c (by simp)

theorem tryOp_none_of_noDigit {a : OpMatcher} (hg : GoodAlt a) {cs : List Char} (h : noDigit cs) :
    tryOp a cs = none := by
  unfold tryOp
  split
  · rfl
  · rename_i m r ha
    have hr : noDigit (sepAfter r) :=
      noDigit_suffix (noDigit_suffix h (hg cs m r ha)) (sepAfter_suffix r)
    rw [matchNum_none_of_head (headDigit_false_of_noDigit hr)]

theorem firstOp_none_of_noDigit :
    ∀ {alts : List OpMatcher}, (∀ a ∈ alts, GoodAlt a) →
      ∀ {cs : List Char}, noDigit cs → firstOp alts cs = none := by
  intro alts
  induction alts with
  | nil => intro _ cs _; rfl
  | cons a as ih =>
    intro hg cs h
    unfold firstOp
    rw [tryOp_none_of_noDigit (hg a (by simp)) h]
    exact ih (fun x hx => hg x (by simp [hx])) h

theorem priceMatchAt_none_of_noDigit {cs : List Char} (h : noDigit cs) :
    priceMatchAt cs = none :=
  firstOp_none_of_noDigit priceAlts_good h

theorem rangeMatchAt_none_of_noDigit {cs : List Char} (h : noDigit cs) :
    rangeMatchAt cs = none := by
  unfold rangeMatchAt
  rw [matchNum_none_of_head (headDigit_false_of_noDigit
    (noDigit_suffix h (dollarSpaces_suffix cs)))]

theorem scanP_none_of_noDigit : ∀ {cs : List Char}, noDigit cs → scanP cs = none := by
  intro cs
  induction cs with
  | nil => intro _; rfl
  | cons c cs2 ih =>
    intro h
    unfold scanP
    rw [priceMatchAt_none_of_noDigit h]
    exact ih (fun x hx => h x (by simp [hx]))

theorem scanR_none_of_noDigit : ∀ {cs : List Char}, noDigit cs → scanR cs = none := by
  intro cs
  induction cs with
  | nil => intro _; rfl
  | cons c cs2 ih =>
    intro h
    unfold scanR
    rw [rangeMatchAt_none_of_noDigit h]
    exact ih (fun x hx => h x (by simp [hx]))

theorem sepAfter_of_headDigit {c : Char} {cs : List Char} (hc : isDig c = true) :
    sepAfter (c :: cs) = c :: cs := by
  unfold sepAfter
  rw [List.dropWhile_cons, if_neg (by simp [isSpc_of_isDig hc])]
  split
  · rename_i r2 heq
    injection heq with h1 h2
    exact absurd h1 (ne_dollar_of_isDig hc)
  · rfl

theorem firstOp_none_forall :
    ∀ {alts : List OpMatcher} {cs : List Char}, firstOp alts cs = none →
      ∀ a ∈ alts, tryOp a cs = none := by
  intro alts
  induction alts with
  | nil => intro cs _ a ha; cases ha
  | cons b bs ih =>
    intro cs h a ha
    unfold firstOp at h
    cases ht : tryOp b cs with
    | some x => rw [ht] at h; cases h
    | none =>
      rw [ht] at h
      rcases List.mem_cons.mp ha with rfl | ha2
      · exact ht
      · exact ih h a ha2

theorem headDigit_false_of_priceMatchAt_none {cs : List Char} (h : priceMatchAt cs = none) :
    headDigit cs = false := by
  cases cs with
  | nil => rfl
  | cons c cs2 =>
    by_cases hc : isDig c = true
    · exfalso
      have hlast := firstOp_none_forall h (fun l => some ([], l)) (by simp [priceAlts])
      obtain ⟨⟨v, r⟩, hmn⟩ := Option.ne_none_iff_exists'.mp (matchNum_ne_none hc)
      have hstep : tryOp (fun l => some ([], l)) (c :: cs2)
          = match matchNum (sepAfter (c :: cs2)) with
            | none => none
            | some (v, rest) => some (([] : List Char), v, rest) := rfl
      rw [hstep, sepAfter_of_headDigit hc, hmn] at hlast
      simp at hlast
    · simp [headDigit, hc]

theorem tryOp_some_lt {a : OpMatcher} {cs m r : List Char} {v : ℚ} (hg : GoodAlt a)
    (h : tryOp a cs = some (m, v, r)) : r.length < cs.length := by
  unfold tryOp at h
  split at h
  · cases h
  · rename_i m1 r1 ha
    split at h
    · cases h
    · rename_i v2 r2 hmn
      simp only [Option.some.injEq, Prod.mk.injEq] at h
      obtain ⟨-, -, rfl⟩ := h
      have h1 := matchNum_lt hmn
      have h2 := (sepAfter_suffix r1).length_le
      have h3 := (hg cs m1 r1 ha).length_le
      omega

theorem firstOp_some_lt :
    ∀ {alts : List OpMatcher} {cs m r : List Char} {v : ℚ}, (∀ a ∈ alts, GoodAlt a) →
      firstOp alts cs = some (m, v, r) → r.length < cs.length := by
  intro alts
  induction alts with
  | nil => intro cs m r v _ h; cases h
  | cons b bs ih =>
    intro cs m r v hg h
    unfold firstOp at h
    cases ht : tryOp b cs with
    | some x =>
      rw [ht] at h
      obtain ⟨m2, v2, r2⟩ := x
      cases h
      exact tryOp_some_lt (hg b (by simp)) ht
    | none =>
      rw [ht] at h
      exact ih (fun a ha => hg a (by simp [ha])) h

theorem priceMatchAt_some_lt {cs m r : List Char} {v : ℚ}
    (h : priceMatchAt cs = some (m, v, r)) : r.length < cs.length :=
  firstOp_some_lt priceAlts_good h

theorem subPAux_noDigit : ∀ (f : Nat) (cs : List Char), cs.length ≤ f →
    noDigit (subPAux f cs) := by
  intro f
  induction f with
  | zero =>
    intro cs hlen
    have hnil : cs = [] := List.eq_nil_of_length_eq_zero (Nat.le_zero.mp hlen)
    subst hnil
    intro c hc
    cases hc
  | succ n ih =>
    intro cs hlen
    cases cs with
    | nil => intro c hc; cases hc
    | cons c cs2 =>
      unfold subPAux
      cases hm : priceMatchAt (c :: cs2) with
      | some pr =>
        obtain ⟨o, v, r⟩ := pr
        have hlt := priceMatchAt_some_lt hm
        refine ih r ?_
        simp only [List.length_cons] at hlt hlen
        omega
      | none =>
        have hcd : isDig c = false := by
          simpa [headDigit] using headDigit_false_of_priceMatchAt_none hm
        intro x hx
        rcases List.mem_cons.mp hx with rfl | hx2
        · exact hcd
        · refine ih cs2 ?_ x hx2
          simp only [List.length_cons] at hlen
          omega

theorem subP_noDigit (cs : List Char) : noDigit (subP cs) :=
  subPAux_noDigit cs.length cs (Nat.le_refl _)

theorem stripB_subset {cs : List Char} : ∀ c ∈ stripB cs, c ∈ cs := by
  intro c hc
  unfold stripB at hc
  rw [List.mem_reverse] at hc
  have h1 := (List.dropWhile_sublist isSpc).subset hc
  rw [List.mem_reverse] at h1
  exact (List.dropWhile_sublist isSpc).subset h1

theorem noDigit_stripB {cs : List Char} (h : noDigit cs) : noDigit (stripB cs) :=
  fun c hc => h c (stripB_subset c hc)

theorem stripB_eq_rdrop (cs : List Char) :
    stripB cs = List.rdropWhile isSpc (cs.dropWhile isSpc) :=
  rfl

theorem stripB_idem (cs : List Char) : stripB (stripB cs) = stripB cs := by
  rw [stripB_eq_rdrop, stripB_eq_rdrop]
  have h1 : (List.rdropWhile isSpc (cs.dropWhile isSpc)).dropWhile isSpc
      = List.rdropWhile isSpc (cs.dropWhile isSpc) := by
    rcases hr : List.rdropWhile isSpc (cs.dropWhile isSpc) with _ | ⟨a, l⟩
    · rfl
    · have hpre : List.rdropWhile isSpc (cs.dropWhile isSpc) <+: cs.dropWhile isSpc :=
        List.rdropWhile_prefix isSpc _
      rw [hr] at hpre
      obtain ⟨t, ht⟩ := hpre
      have ha : isSpc a = false := dropWhile_head_false (l := cs) (by rw [← ht]; rfl)
      rw [List.dropWhile_cons, if_neg (by simp [ha])]
  rw [h1, List.rdropWhile_idempotent]

/-- Shape of `parse_price_filters` when the range pattern fails and the
single-sided pattern matches. -/
theorem parse_eq_of_scans {g : String} {op : List Char} {v : ℚ}
    (hR : scanR (stripB g.toList) = none)
    (hP : scanP (stripB g.toList) = some (op, v)) :
    parse_price_filters g =
      (if op.map Char.toLower ∈ minOps then
        ((some v : Option ℚ), (none : Option ℚ), String.mk (stripB (subP (stripB g.toList))))
       else if op.map Char.toLower ∈ maxOps then
        (none, some v, String.mk (stripB (subP (stripB g.toList))))
       else (none, none, String.mk (stripB g.toList))) := by
  simp only [parse_price_filters]
  rw [hR, hP]

/-- Shape of `parse_price_filters` when neither pattern matches. -/
theorem parse_eq_of_none {g : String}
    (hR : scanR (stripB g.toList) = none)
    (hP : scanP (stripB g.toList) = none) :
    parse_price_filters g = (none, none, String.mk (stripB g.toList)) := by
  simp only [parse_price_filters]
  rw [hR, hP]

/-- On digit-free goals the parser finds nothing and only strips the ends. -/
theorem parse_of_noDigit {g : String} (h : noDigit g.toList) :
    parse_price_filters g = (none, none, String.mk (stripB g.toList)) :=
  parse_eq_of_none (scanR_none_of_noDigit (noDigit_stripB h))
    (scanP_none_of_noDigit (noDigit_stripB h))

/-- C4 (amended): re-parsing the cleaned query yields no further non-null
bound for every goal on which the range pattern does not fire (when it does,
removing the range matches can splice a fresh range out of the remnants, see
the counterexample).  Key fact: `PRICE_RE.sub` consumes every digit, so a
single-sided clean leaves nothing for either pattern to match. -/
theorem c4_idempotent_no_range (goal : String)
    (h : scanR (stripB goal.toList) = none) :
    (parse_price_filters ((parse_price_filters goal).2.2)).1 = none ∧
    (parse_price_filters ((parse_price_filters goal).2.2)).2.1 = none := by
  have hidem : stripB (String.mk (stripB goal.toList)).toList = stripB goal.toList := by
    rw [show (String.mk (stripB goal.toList)).toList = stripB goal.toList from rfl]
    exact stripB_idem _
  cases hP : scanP (stripB goal.toList) with
  | none =>
    rw [parse_eq_of_none h hP]
    have h2 := parse_eq_of_none (g := String.mk (stripB goal.toList))
      (by rw [hidem]; exact h) (by rw [hidem]; exact hP)
    rw [h2]
    exact ⟨rfl, rfl⟩
  | some pr =>
    obtain ⟨op, v⟩ := pr
    have hmain := parse_eq_of_scans (g := goal) h hP
    have hclean : noDigit (String.mk (stripB (subP (stripB goal.toList)))).toList := by
      rw [show (String.mk (stripB (subP (stripB goal.toList)))).toList
          = stripB (subP (stripB goal.toList)) from rfl]
      exact noDigit_stripB (subP_noDigit _)
    by_cases h1 : op.map Char.toLower ∈ minOps
    · have hcl : (parse_price_filters goal).2.2
          = String.mk (stripB (subP (stripB goal.toList))) := by
        rw [hmain, if_pos h1]
      rw [hcl, parse_of_noDigit hclean]
      exact ⟨rfl, rfl⟩
    · by_cases h2 : op.map Char.toLower ∈ maxOps
      · have hcl : (parse_price_filters goal).2.2
            = String.mk (stripB (subP (stripB goal.toList))) := by
          rw [hmain, if_neg h1, if_pos h2]
        rw [hcl, parse_of_noDigit hclean]
        exact ⟨rfl, rfl⟩
      · have hcl : (parse_price_filters goal).2.2 = String.mk (stripB goal.toList) := by
          rw [hmain, if_neg h1, if_neg h2]
        rw [hcl]
        have hsecond := parse_eq_of_scans (g := String.mk (stripB goal.toList))
          (by rw [hidem]; exact h) (by rw [hidem]; exact hP)
        rw [hsecond, if_neg h1, if_neg h2]
        exact ⟨rfl, rfl⟩

/-- Counterexample to C4 as stated: on `"3 3 to 4 to 4"` the range branch
fires, removing the match ` 3 to 4` splices the remnants into the fresh
range `3 to 4`, and re-parsing the cleaned query yields the further bound
`(3, 4)`. -/
theorem c4_counterexample :
    (parse_price_filters "3 3 to 4 to 4").2.2 = "3 to 4"
    ∧ ¬ ((parse_price_filters ((parse_price_filters "3 3 to 4 to 4").2.2)).1 = none
         ∧ (parse_price_filters ((parse_price_filters "3 3 to 4 to 4").2.2)).2.1 = none) := by
  constructor
  · decide
  · decide

/-- Witness for the amended C4 at a concrete range-free goal. -/
theorem c4_idempotent_no_range_witness :
    scanR (stripB ("hat under 30").toList) = none
    ∧ (parse_price_filters ((parse_price_filters "hat under 30").2.2)).1 = none
    ∧ (parse_price_filters ((parse_price_filters "hat under 30").2.2)).2.1 = none :=
  ⟨by decide, (c4_idempotent_no_range "hat under 30" (by decide)).1,
    (c4_idempotent_no_range "hat under 30" (by decide)).2⟩

theorem dropWhile_append_cons {t0 : Char} {B : List Char} (h : isSpc t0 = false) :
    ∀ v : List Char, (v ++ t0 :: B).dropWhile isSpc = v.dropWhile isSpc ++ t0 :: B := by
  intro v
  induction v with
  | nil => simp [List.dropWhile_cons, h]
  | cons c v2 ih =>
    by_cases hc : isSpc c = true
    · simp only [List.cons_append, List.dropWhile_cons, hc, if_true, ih]
    · simp only [List.cons_append, List.dropWhile_cons, hc, if_false]
      simp [hc]

theorem headDigit_dropSpc_append {t0 : Char} {B : List Char}
    (hsp : isSpc t0 = false) (hdg : isDig t0 = false) :
    ∀ {v : List Char}, noDigit v → headDigit ((v ++ t0 :: B).dropWhile isSpc) = false := by
  intro v hv
  rw [dropWhile_append_cons hsp]
  rcases hd : v.dropWhile isSpc with _ | ⟨a, l⟩
  · simpa [headDigit] using hdg
  · have ha : a ∈ v := (List.dropWhile_sublist isSpc).subset (by rw [hd]; simp)
    simpa [headDigit] using hv a ha

theorem headDigit_sepAfter_append {t0 : Char} {B : List Char}
    (hsp : isSpc t0 = false) (hdg : isDig t0 = false) (hdol : t0 ≠ '$') :
    ∀ {v : List Char}, noDigit v → headDigit (sepAfter (v ++ t0 :: B)) = false := by
  intro v hv
  unfold sepAfter
  rw [dropWhile_append_cons hsp]
  rcases hd : v.dropWhile isSpc with _ | ⟨a, l⟩
  · simp only [List.nil_append]
    split
    · rename_i r2 heq
      injection heq with h1 h2
      exact absurd h1 hdol
    · simpa [headDigit] using hdg
  · have hmem : ∀ x ∈ a :: l, x ∈ v := by
      intro x hx
      exact (List.dropWhile_sublist isSpc).subset (by rw [hd]; exact hx)
    by_cases ha : a = '$'
    · subst ha
      simp only [List.cons_append]
      have hl : noDigit l := fun x hx => hv x (hmem x (by simp [hx]))
      simpa using headDigit_dropSpc_append hsp hdg hl
    · simp only [List.cons_append]
      split
      · rename_i r2 heq
        injection heq with h1 h2
        exact absurd h1 ha
      · simpa [headDigit] using hv a (hmem a (by simp))

theorem headDigit_dollarSpaces_append {t0 : Char} {B : List Char}
    (hsp : isSpc t0 = false) (hdg : isDig t0 = false) (hdol : t0 ≠ '$') :
    ∀ {v : List Char}, noDigit v → headDigit (dollarSpaces (v ++ t0 :: B)) = false := by
  intro v hv
  unfold dollarSpaces
  cases v with
  | nil =>
    simp only [List.nil_append]
    split
    · rename_i r heq
      injection heq with h1 h2
      exact absurd h1 hdol
    · rw [List.dropWhile_cons, if_neg (by simp [hsp])]
      simpa [headDigit] using hdg
  | cons a v2 =>
    by_cases ha : a = '$'
    · subst ha
      simp only [List.cons_append]
      have hv2 : noDigit v2 := fun x hx => hv x (by simp [hx])
      simpa using headDigit_dropSpc_append hsp hdg hv2
    · simp only [List.cons_append]
      split
      · rename_i r heq
        injection heq with h1 h2
        exact absurd h1 ha
      · exact headDigit_dropSpc_append hsp hdg hv

theorem rangeMatchAt_append_none {t0 : Char} {B : List Char}
    (hsp : isSpc t0 = false) (hdg : isDig t0 = false) (hdol : t0 ≠ '$')
    {v : List Char} (hv : noDigit v) :
    rangeMatchAt (v ++ t0 :: B) = none := by
  unfold rangeMatchAt
  rw [matchNum_none_of_head (headDigit_dollarSpaces_append hsp hdg hdol hv)]

theorem scanR_append {t0 : Char} {B : List Char}
    (hsp : isSpc t0 = false) (hdg : isDig t0 = false) (hdol : t0 ≠ '$') :
    ∀ v : List Char, noDigit v → scanR (v ++ t0 :: B) = scanR (t0 :: B) := by
  intro v
  induction v with
  | nil => intro _; rfl
  | cons c v2 ih =>
    intro hv
    have hnone : rangeMatchAt (c :: (v2 ++ t0 :: B)) = none := by
      have hx := rangeMatchAt_append_none (B := B) hsp hdg hdol (v := c :: v2) hv
      simpa using hx
    rw [List.cons_append, scanR, hnone]
    exact ih (fun x hx => hv x (by simp [hx]))

/-- A case-insensitive literal matched against `v ++ T` either stays inside
`v` (the remainder still ends in `T`) or crosses into `T`, in which case a
suffix of the pattern — proper as soon as `v` is non-empty — matches at the
start of `T`. -/
theorem litCI_append_split {T : List Char} :
    ∀ (w v m r : List Char), litCI w (v ++ T) = some (m, r) →
      (∃ v2, v2 <:+ v ∧ r = v2 ++ T)
      ∨ (∃ w2 m2, w2 <:+ w ∧ w2 ≠ [] ∧ (v = [] ∨ w2.length < w.length)
          ∧ litCI w2 T = some (m2, r)) := by
  intro w
  induction w with
  | nil =>
    intro v m r h
    simp only [litCI, Option.some.injEq, Prod.mk.injEq] at h
    obtain ⟨rfl, rfl⟩ := h
    exact Or.inl ⟨v, List.suffix_refl v, rfl⟩
  | cons p ps ih =>
    intro v m r h
    cases v with
    | nil =>
      exact Or.inr ⟨p :: ps, m, List.suffix_refl _, by simp, Or.inl rfl, by simpa using h⟩
    | cons c v2 =>
      rw [List.cons_append] at h
      simp only [litCI] at h
      by_cases hc : c.toLower = p
      · rw [if_pos hc] at h
        cases hl : litCI ps (v2 ++ T) with
        | none => rw [hl] at h; cases h
        | some pr =>
          obtain ⟨m2, r2⟩ := pr
          rw [hl] at h
          simp only [Option.some.injEq, Prod.mk.injEq] at h
          obtain ⟨-, rfl⟩ := h
          rcases ih v2 m2 r2 hl with ⟨v3, hs, rfl⟩ | ⟨w2, m3, hw, hne, -, hlit⟩
          · exact Or.inl ⟨v3, hs.trans (List.suffix_cons c v2), rfl⟩
          · refine Or.inr ⟨w2, m3, hw.trans (List.suffix_cons p ps), hne, Or.inr ?_, hlit⟩
            exact Nat.lt_succ_of_le hw.length_le
      · rw [if_neg hc] at h
        cases h

/-- A literal whose non-trivial tails all fail on `T` can only match inside
the digit-free part. -/
theorem litCI_good_on_target {t0 : Char} {B : List Char} {w : List Char}
    (hw : ∀ u ∈ w.tails, u = [] ∨ u = w ∨ litCI u (t0 :: B) = none) :
    ∀ v m r, v ≠ [] → litCI w (v ++ t0 :: B) = some (m, r) →
      ∃ v3, v3 <:+ v ∧ r = v3 ++ t0 :: B := by
  intro v m r hv h
  rcases litCI_append_split w v m r h with ⟨v3, hs, rfl⟩ | ⟨w2, m2, hsuf, hne, hor, hlit⟩
  · exact ⟨v3, hs, rfl⟩
  · rcases hor with rfl | hlt
    · exact absurd rfl hv
    · rcases hw w2 ((List.mem_tails _ _).mpr hsuf) with rfl | rfl | hnone
      · exact absurd rfl hne
      · exact absurd hlt (by simp)
      · rw [hnone] at hlit
        cases hlit

/-- A two-word alternative whose pieces cannot cross into `T` only matches
inside the digit-free part. -/
theorem wordPair_good_on_target {t0 : Char} {B : List Char} {w1 w2 : List Char}
    (hsp : isSpc t0 = false)
    (hw1 : ∀ u ∈ w1.tails, u = [] ∨ u = w1 ∨ litCI u (t0 :: B) = none)
    (hw2 : ∀ u ∈ w2.tails, u = [] ∨ litCI u (t0 :: B) = none) :
    ∀ v m r, v ≠ [] → wordPair w1 w2 (v ++ t0 :: B) = some (m, r) →
      ∃ v3, v3 <:+ v ∧ r = v3 ++ t0 :: B := by
  intro v m r hv h
  unfold wordPair at h
  split at h
  · cases h
  · rename_i m1 r1 h1
    split at h
    · cases h
    · rename_i sp r2 h2
      split at h
      · cases h
      · rename_i m3 r3 h3
        simp only [Option.some.injEq, Prod.mk.injEq] at h
        obtain ⟨-, rfl⟩ := h
        obtain ⟨v1, hs1, rfl⟩ := litCI_good_on_target hw1 v m1 r1 hv h1
        have hr2 : r2 = v1.dropWhile isSpc ++ t0 :: B := by
          rw [(spaces1_decomp h2).2, dropWhile_append_cons hsp]
        subst hr2
        rcases litCI_append_split w2 (v1.dropWhile isSpc) m3 r3 h3 with
          ⟨v3, hs3, rfl⟩ | ⟨u, m4, hsuf, hne, -, hlit⟩
        · exact ⟨v3, (hs3.trans (List.dropWhile_suffix isSpc)).trans hs1, rfl⟩
        · rcases hw2 u ((List.mem_tails _ _).mpr hsuf) with rfl | hnone
          · exact absurd rfl hne
          · rw [hnone] at hlit
            cases hlit

/-- An alternative that only matches inside the digit-free part never
completes a price match over `v ++ T`: the separator lands on a non-digit. -/
theorem tryOp_none_of_target {t0 : Char} {B : List Char} (a : OpMatcher)
    (hsp : isSpc t0 = false) (hdg : isDig t0 = false) (hdol : t0 ≠ '$')
    (hgood : ∀ v m r, v ≠ [] → a (v ++ t0 :: B) = some (m, r) →
        ∃ v3, v3 <:+ v ∧ r = v3 ++ t0 :: B)
    {v : List Char} (hv : v ≠ []) (hnd : noDigit v) : tryOp a (v ++ t0 :: B) = none := by
  unfold tryOp
  split
  · rfl
  · rename_i m r ha
    obtain ⟨v3, hsuf, rfl⟩ := hgood v m r hv ha
    have hnd3 : noDigit v3 := fun x hx => hnd x (hsuf.subset hx)
    rw [matchNum_none_of_head (headDigit_sepAfter_append hsp hdg hdol hnd3)]

/-- No price match can start inside the digit-free part of `v ++ T`: every
alternative either fails or leaves the separator landing on a non-digit. -/
theorem priceMatchAt_append_none {t0 : Char} {B : List Char}
    (hsp : isSpc t0 = false) (hdg : isDig t0 = false) (hdol : t0 ≠ '$')
    (ha1 : ∀ u ∈ "above".toList.tails, u = [] ∨ u = "above".toList ∨ litCI u (t0 :: B) = none)
    (ha2 : ∀ u ∈ "over".toList.tails, u = [] ∨ u = "over".toList ∨ litCI u (t0 :: B) = none)
    (ha3 : ∀ u ∈ "under".toList.tails, u = [] ∨ u = "under".toList ∨ litCI u (t0 :: B) = none)
    (ha4 : ∀ u ∈ "below".toList.tails, u = [] ∨ u = "below".toList ∨ litCI u (t0 :: B) = none)
    (hb1 : ∀ u ∈ "less".toList.tails, u = [] ∨ u = "less".toList ∨ litCI u (t0 :: B) = none)
    (hb2 : ∀ u ∈ "than".toList.tails, u = [] ∨ litCI u (t0 :: B) = none)
    (hb3 : ∀ u ∈ "more".toList.tails, u = [] ∨ u = "more".toList ∨ litCI u (t0 :: B) = none)
    (hb4 : ∀ u ∈ "at".toList.tails, u = [] ∨ u = "at".toList ∨ litCI u (t0 :: B) = none)
    (hb5 : ∀ u ∈ "least".toList.tails, u = [] ∨ litCI u (t0 :: B) = none)
    (hc1 : ∀ u ∈ ">=".toList.tails, u = [] ∨ u = ">=".toList ∨ litCI u (t0 :: B) = none)
    (hc2 : ∀ u ∈ ">".toList.tails, u = [] ∨ u = ">".toList ∨ litCI u (t0 :: B) = none)
    (hc3 : ∀ u ∈ "<=".toList.tails, u = [] ∨ u = "<=".toList ∨ litCI u (t0 :: B) = none)
    (hc4 : ∀ u ∈ "<".toList.tails, u = [] ∨ u = "<".toList ∨ litCI u (t0 :: B) = none) :
    ∀ v : List Char, v ≠ [] → noDigit v → priceMatchAt (v ++ t0 :: B) = none := by
  intro v hv hnd
  have e1 := tryOp_none_of_target _ hsp hdg hdol (litCI_good_on_target ha1) hv hnd
  have e2 := tryOp_none_of_target _ hsp hdg hdol (litCI_good_on_target ha2) hv hnd
  have e3 := tryOp_none_of_target _ hsp hdg hdol (litCI_good_on_target ha3) hv hnd
  have e4 := tryOp_none_of_target _ hsp hdg hdol (litCI_good_on_target ha4) hv hnd
  have e5 := tryOp_none_of_target _ hsp hdg hdol (wordPair_good_on_target hsp hb1 hb2) hv hnd
  have e6 := tryOp_none_of_target _ hsp hdg hdol (wordPair_good_on_target hsp hb3 hb2) hv hnd
  have e7 := tryOp_none_of_target _ hsp hdg hdol (wordPair_good_on_target hsp hb4 hb5) hv hnd
  have e8 := tryOp_none_of_target _ hsp hdg hdol (litCI_good_on_target hc1) hv hnd
  have e9 := tryOp_none_of_target _ hsp hdg hdol (litCI_good_on_target hc2) hv hnd
  have e10 := tryOp_none_of_target _ hsp hdg hdol (litCI_good_on_target hc3) hv hnd
  have e11 := tryOp_none_of_target _ hsp hdg hdol (litCI_good_on_target hc4) hv hnd
  have e12 := tryOp_none_of_target (B := B) (fun l => some ([], l)) hsp hdg hdol
    (fun v m r _ h => by cases h; exact ⟨v, List.suffix_refl v, rfl⟩) hv hnd
  simp only [priceMatchAt, priceAlts, firstOp, e1, e2, e3, e4, e5, e6, e7, e8, e9, e10, e11, e12]

/-- Scanning `v ++ T` with `v` digit-free starts matching only inside `T`. -/
theorem scanP_append {t0 : Char} {B : List Char}
    (hsp : isSpc t0 = false) (hdg : isDig t0 = false) (hdol : t0 ≠ '$')
    (ha1 : ∀ u ∈ "above".toList.tails, u = [] ∨ u = "above".toList ∨ litCI u (t0 :: B) = none)
    (ha2 : ∀ u ∈ "over".toList.tails, u = [] ∨ u = "over".toList ∨ litCI u (t0 :: B) = none)
    (ha3 : ∀ u ∈ "under".toList.tails, u = [] ∨ u = "under".toList ∨ litCI u (t0 :: B) = none)
    (ha4 : ∀ u ∈ "below".toList.tails, u = [] ∨ u = "below".toList ∨ litCI u (t0 :: B) = none)
    (hb1 : ∀ u ∈ "less".toList.tails, u = [] ∨ u = "less".toList ∨ litCI u (t0 :: B) = none)
    (hb2 : ∀ u ∈ "than".toList.tails, u = [] ∨ litCI u (t0 :: B) = none)
    (hb3 : ∀ u ∈ "more".toList.tails, u = [] ∨ u = "more".toList ∨ litCI u (t0 :: B) = none)
    (hb4 : ∀ u ∈ "at".toList.tails, u = [] ∨ u = "at".toList ∨ litCI u (t0 :: B) = none)
    (hb5 : ∀ u ∈ "least".toList.tails, u = [] ∨ litCI u (t0 :: B) = none)
    (hc1 : ∀ u ∈ ">=".toList.tails, u = [] ∨ u = ">=".toList ∨ litCI u (t0 :: B) = none)
    (hc2 : ∀ u ∈ ">".toList.tails, u = [] ∨ u = ">".toList ∨ litCI u (t0 :: B) = none)
    (hc3 : ∀ u ∈ "<=".toList.tails, u = [] ∨ u = "<=".toList ∨ litCI u (t0 :: B) = none)
    (hc4 : ∀ u ∈ "<".toList.tails, u = [] ∨ u = "<".toList ∨ litCI u (t0 :: B) = none) :
    ∀ v : List Char, noDigit v → scanP (v ++ t0 :: B) = scanP (t0 :: B) := by
  intro v
  induction v with
  | nil => intro _; rfl
  | cons c v2 ih =>
    intro hv
    have hnone : priceMatchAt (c :: (v2 ++ t0 :: B)) = none := by
      have hx := priceMatchAt_append_none (B := B) hsp hdg hdol ha1 ha2 ha3 ha4 hb1 hb2 hb3
        hb4 hb5 hc1 hc2 hc3 hc4 (c :: v2) (by simp) hv
      simpa using hx
    rw [List.cons_append, scanP, hnone]
    exact ih (fun x hx => hv x (by simp [hx]))

theorem rdropWhile_append_last {Y T : List Char} (hT : T ≠ [])
    (hl : isSpc (T.getLast hT) = false) : List.rdropWhile isSpc (Y ++ T) = Y ++ T := by
  rw [List.rdropWhile_eq_self_iff]
  intro hne
  rw [List.getLast_append' Y T hT]
  simp [hl]

theorem stripB_append_T {q : List Char} {t0 : Char} {B : List Char}
    (hsp : isSpc t0 = false)
    (hlast : isSpc ((t0 :: B).getLast (List.cons_ne_nil t0 B)) = false) :
    stripB (q ++ t0 :: B) = q.dropWhile isSpc ++ t0 :: B := by
  rw [stripB_eq_rdrop, dropWhile_append_cons hsp,
    rdropWhile_append_last (List.cons_ne_nil t0 B) hlast]

/-- C3 (amended): appending `"under 30"` to any digit-free text parses to the
upper bound 30, appending `"above 50"` parses to the lower bound 50, and a
goal containing no digit at all parses to no bound with the query merely
stripped of leading and trailing whitespace.  (The unrestricted claim fails:
an earlier number in the goal wins the leftmost-match race, see the
counterexample.) -/
theorem c3_price_phrase_parsing :
    (∀ q : List Char, noDigit q →
        (parse_price_filters (String.mk (q ++ "under 30".toList))).1 = none
        ∧ (parse_price_filters (String.mk (q ++ "under 30".toList))).2.1 = some 30)
    ∧ (∀ q : List Char, noDigit q →
        (parse_price_filters (String.mk (q ++ "above 50".toList))).1 = some 50
        ∧ (parse_price_filters (String.mk (q ++ "above 50".toList))).2.1 = none)
    ∧ (∀ g : String, noDigit g.toList →
        parse_price_filters g = (none, none, String.mk (stripB g.toList))) := by
  refine ⟨?_, ?_, fun g hg => parse_of_noDigit hg⟩
  · intro q hq
    have hT : "under 30".toList = 'u' :: "nder 30".toList := rfl
    have htl : (String.mk (q ++ "under 30".toList)).toList = q ++ "under 30".toList := rfl
    have hq2 : noDigit (q.dropWhile isSpc) :=
      fun c hc => hq c ((List.dropWhile_sublist isSpc).subset hc)
    have hstrip : stripB (q ++ "under 30".toList)
        = q.dropWhile isSpc ++ "under 30".toList := by
      rw [hT]
      exact stripB_append_T (by decide) (by decide)
    have hR : scanR (stripB (q ++ "under 30".toList)) = none := by
      rw [hstrip, hT, scanR_append (by decide) (by decide) (by decide) _ hq2]
      decide
    have hP : scanP (stripB (q ++ "under 30".toList)) = some ("under".toList, 30) := by
      rw [hstrip, hT, scanP_append (by decide) (by decide) (by decide) (by decide) (by decide)
        (by decide) (by decide) (by decide) (by decide) (by decide) (by decide) (by decide)
        (by decide) (by decide) (by decide) (by decide) _ hq2]
      decide
    have hshape := parse_eq_of_scans (g := String.mk (q ++ "under 30".toList))
      (by rw [htl]; exact hR) (by rw [htl]; exact hP)
    rw [hshape, if_neg (by decide), if_pos (by decide)]
    exact ⟨rfl, rfl⟩
  · intro q hq
    have hT : "above 50".toList = 'a' :: "bove 50".toList := rfl
    have htl : (String.mk (q ++ "above 50".toList)).toList = q ++ "above 50".toList := rfl
    have hq2 : noDigit (q.dropWhile isSpc) :=
      fun c hc => hq c ((List.dropWhile_sublist isSpc).subset hc)
    have hstrip : stripB (q ++ "above 50".toList)
        = q.dropWhile isSpc ++ "above 50".toList := by
      rw [hT]
      exact stripB_append_T (by decide) (by decide)
    have hR : scanR (stripB (q ++ "above 50".toList)) = none := by
      rw [hstrip, hT, scanR_append (by decide) (by decide) (by decide) _ hq2]
      decide
    have hP : scanP (stripB (q ++ "above 50".toList)) = some ("above".toList, 50) := by
      rw [hstrip, hT, scanP_append (by decide) (by decide) (by decide) (by decide) (by decide)
        (by decide) (by decide) (by decide) (by decide) (by decide) (by decide) (by decide)
        (by decide) (by decide) (by decide) (by decide) _ hq2]
      decide
    have hshape := parse_eq_of_scans (g := String.mk (q ++ "above 50".toList))
      (by rw [htl]; exact hR) (by rw [htl]; exact hP)
    rw [hshape, if_pos (by decide)]
    exact ⟨rfl, rfl⟩

/-- Counterexample to C3 as stated: `"5 under 30"` contains the phrase
`under 30`, yet the leftmost single-sided match is the bare `5` with an
absent comparison group, so the parser returns no bound at all and the query
unchanged. -/
theorem c3_counterexample :
    isSubL "under 30".toList "5 under 30".toList = true
    ∧ parse_price_filters "5 under 30" = (none, none, "5 under 30")
    ∧ (parse_price_filters "5 under 30").2.1 ≠ some 30 := by
  refine ⟨by decide, by decide, by decide⟩

/-- Witness for the amended C3 at concrete digit-free prefixes. -/
theorem c3_price_phrase_parsing_witness :
    ((parse_price_filters (String.mk ("cheapest hat ".toList ++ "under 30".toList))).1 = none
      ∧ (parse_price_filters (String.mk ("cheapest hat ".toList ++ "under 30".toList))).2.1
          = some 30)
    ∧ ((parse_price_filters (String.mk ("warm socks ".toList ++ "above 50".toList))).1 = some 50
      ∧ (parse_price_filters (String.mk ("warm socks ".toList ++ "above 50".toList))).2.1 = none)
    ∧ parse_price_filters "  red hat " = (none, none, String.mk (stripB "  red hat ".toList)) :=
  ⟨c3_price_phrase_parsing.1 "cheapest hat ".toList (by decide),
    c3_price_phrase_parsing.2.1 "warm socks ".toList (by decide),
    c3_price_phrase_parsing.2.2 "  red hat " (by decide)⟩

/-- Witness for C10: the second extraction replaces the data recorded by the
first. -/
theorem c10_data_overwritten_witness :
    stepOnce envTwoExtracts none "hat"
        ⟨[extractStep, extractStep], 1, ⟨[prodA, prodB], some prodB, []⟩, 1, 0, EngStatus.running⟩
        = ⟨[extractStep, extractStep], 2, ⟨[prodB], some prodB, []⟩, 2, 0, EngStatus.running⟩
      ∧ execute_plan envTwoExtracts none "hat" [extractStep, extractStep] 5
        = some (Except.ok ⟨[prodB], some prodB, []⟩) :=
  ⟨c10_data_overwritten.1 envTwoExtracts none "hat"
      ⟨[extractStep, extractStep], 1, ⟨[prodA, prodB], some prodB, []⟩, 1, 0, EngStatus.running⟩
      extractStep prodB [] rfl rfl rfl rfl,
    c10_data_overwritten.2⟩

end WebAuto
